import Mathlib

/-!
Verification of the core AC pattern matcher of `patternmatcher/matching/common.py`.

The file shallow-embeds the matcher.  Generators become list-valued functions,
uncaught raised conditions (the `ValueError` precondition check of
`match_commutative_operation` and the assertions of
`CommutativePatternsParts._update_var_info`) become `Except.error`, and the
external collaborators that are not part of the sources (the expression data
model, `Substitution`, `Multiset`, `Constraint`/`MultiConstraint` and the
utility iterators of `..utils`) are modelled from the specification, each with
a doc comment saying so.
-/

namespace PM

/-- Modelled from the spec (§4.5, `..constraints` is not among the sources):
a constraint is a predicate on substitutions.  Base constraints are opaque
(indexed by a number and interpreted by an environment `cenv`); the
`multi` constructor is the composite produced by the multi-constraint
factory and denotes the conjunction of its parts. -/
inductive Constraint where
  | base (id : Nat)
  | multi (cs : List Constraint)

mutual

/-- Decidable equality on constraints. -/
def Constraint.decEq : (a b : Constraint) → Decidable (a = b)
  | .base i, .base j =>
      match Nat.decEq i j with
      | isTrue h => isTrue (by rw [h])
      | isFalse h => isFalse (fun hh => by injection hh with h1; exact h h1)
  | .base _, .multi _ => isFalse (fun h => by injection h)
  | .multi _, .base _ => isFalse (fun h => by injection h)
  | .multi cs, .multi ds =>
      match Constraint.decEqList cs ds with
      | isTrue h => isTrue (by rw [h])
      | isFalse h => isFalse (fun hh => by injection hh with h1; exact h h1)

/-- Decidable equality on lists of constraints. -/
def Constraint.decEqList : (as bs : List Constraint) → Decidable (as = bs)
  | [], [] => isTrue rfl
  | [], _ :: _ => isFalse (fun h => by injection h)
  | _ :: _, [] => isFalse (fun h => by injection h)
  | a :: as, b :: bs =>
      match Constraint.decEq a b, Constraint.decEqList as bs with
      | isTrue h1, isTrue h2 => isTrue (by rw [h1, h2])
      | isFalse h1, _ => isFalse (fun hh => by injection hh with e1 e2; exact h1 e1)
      | _, isFalse h2 => isFalse (fun hh => by injection hh with e1 e2; exact h2 e2)

end

instance : DecidableEq Constraint := Constraint.decEq

/-- Modelled from the spec (§4.5): `MultiConstraint.create` is null-safe —
it returns null if all inputs are null, the single constraint if exactly one
is non-null, and otherwise a composite denoting the conjunction. -/
def MultiConstraint.create (cs : List (Option Constraint)) : Option Constraint :=
  match cs.filterMap id with
  | [] => none
  | [c] => some c
  | cs => some (.multi cs)

/-- Modelled from the spec (§3): the identity of an `Operation` subclass —
its name (`id`) together with its `associative`/`commutative` flags.
`isinstance(e, op_class)` checks become equality of `OpType`s. -/
structure OpType where
  id : Nat
  associative : Bool
  commutative : Bool
deriving DecidableEq

/-- Modelled from the spec (§3, `..expressions` is not among the sources):
the expression variants.  `Symbol` carries a subtype tag (`symtype`)
standing for its Python class, so `isinstance` checks on symbol subtypes
become tag equality.  A `SymbolWildcard` is a `Wildcard` whose
`symbol_type` is non-null.  Every expression carries an optional
constraint, as in the Python `Expression` base class. -/
inductive Expr where
  | Symbol (symtype : Nat) (name : String) (constraint : Option Constraint)
  | Wildcard (min_count : Nat) (fixed_size : Bool) (symbol_type : Option Nat)
      (constraint : Option Constraint)
  | Variable (name : String) (expression : Expr) (constraint : Option Constraint)
  | Operation (optype : OpType) (operands : List Expr) (constraint : Option Constraint)

mutual

/-- Decidable equality on expressions. -/
def Expr.decEq : (a b : Expr) → Decidable (a = b)
  | .Symbol t n c, .Symbol t' n' c' =>
      if h : t = t' ∧ n = n' ∧ c = c' then isTrue (by rw [h.1, h.2.1, h.2.2])
      else isFalse (fun hh => by injection hh with h1 h2 h3; exact h ⟨h1, h2, h3⟩)
  | .Symbol _ _ _, .Wildcard _ _ _ _ => isFalse (fun h => by injection h)
  | .Symbol _ _ _, .Variable _ _ _ => isFalse (fun h => by injection h)
  | .Symbol _ _ _, .Operation _ _ _ => isFalse (fun h => by injection h)
  | .Wildcard _ _ _ _, .Symbol _ _ _ => isFalse (fun h => by injection h)
  | .Wildcard mc fs st c, .Wildcard mc' fs' st' c' =>
      if h : mc = mc' ∧ fs = fs' ∧ st = st' ∧ c = c' then
        isTrue (by rw [h.1, h.2.1, h.2.2.1, h.2.2.2])
      else isFalse (fun hh => by injection hh with h1 h2 h3 h4; exact h ⟨h1, h2, h3, h4⟩)
  | .Wildcard _ _ _ _, .Variable _ _ _ => isFalse (fun h => by injection h)
  | .Wildcard _ _ _ _, .Operation _ _ _ => isFalse (fun h => by injection h)
  | .Variable _ _ _, .Symbol _ _ _ => isFalse (fun h => by injection h)
  | .Variable _ _ _, .Wildcard _ _ _ _ => isFalse (fun h => by injection h)
  | .Variable n e c, .Variable n' e' c' =>
      match Expr.decEq e e' with
      | isTrue he =>
          if h : n = n' ∧ c = c' then isTrue (by rw [he, h.1, h.2])
          else isFalse (fun hh => by injection hh with h1 h2 h3; exact h ⟨h1, h3⟩)
      | isFalse he => isFalse (fun hh => by injection hh with h1 h2 h3; exact he h2)
  | .Variable _ _ _, .Operation _ _ _ => isFalse (fun h => by injection h)
  | .Operation _ _ _, .Symbol _ _ _ => isFalse (fun h => by injection h)
  | .Operation _ _ _, .Wildcard _ _ _ _ => isFalse (fun h => by injection h)
  | .Operation _ _ _, .Variable _ _ _ => isFalse (fun h => by injection h)
  | .Operation t ops c, .Operation t' ops' c' =>
      match Expr.decEqList ops ops' with
      | isTrue ho =>
          if h : t = t' ∧ c = c' then isTrue (by rw [ho, h.1, h.2])
          else isFalse (fun hh => by injection hh with h1 h2 h3; exact h ⟨h1, h3⟩)
      | isFalse ho => isFalse (fun hh => by injection hh with h1 h2 h3; exact ho h2)

/-- Decidable equality on lists of expressions. -/
def Expr.decEqList : (as bs : List Expr) → Decidable (as = bs)
  | [], [] => isTrue rfl
  | [], _ :: _ => isFalse (fun h => by injection h)
  | _ :: _, [] => isFalse (fun h => by injection h)
  | a :: as, b :: bs =>
      match Expr.decEq a b, Expr.decEqList as bs with
      | isTrue h1, isTrue h2 => isTrue (by rw [h1, h2])
      | isFalse h1, _ => isFalse (fun hh => by injection hh with e1 e2; exact h1 e1)
      | _, isFalse h2 => isFalse (fun hh => by injection hh with e1 e2; exact h2 e2)

end

instance : DecidableEq Expr := Expr.decEq

/-- The constraint attached at the root of an expression. -/
def Expr.constraint : Expr → Option Constraint
  | .Symbol _ _ c => c
  | .Wildcard _ _ _ c => c
  | .Variable _ _ c => c
  | .Operation _ _ c => c

mutual

/-- Modelled from the spec (§3): `is_constant` — no variables or wildcards
anywhere in the expression. -/
def Expr.is_constant : Expr → Bool
  | .Symbol _ _ _ => true
  | .Wildcard _ _ _ _ => false
  | .Variable _ _ _ => false
  | .Operation _ ops _ => exprsConstant ops

/-- Auxiliary conjunction of `Expr.is_constant` over a list of operands. -/
def exprsConstant : List Expr → Bool
  | [] => true
  | e :: es => e.is_constant && exprsConstant es

end

mutual

/-- Modelled from the spec (§3): `is_syntactic` — no nested
associative/commutative operation and no sequence wildcards. -/
def Expr.is_syntactic : Expr → Bool
  | .Symbol _ _ _ => true
  | .Wildcard _ fs _ _ => fs
  | .Variable _ e _ => e.is_syntactic
  | .Operation t ops _ => !t.associative && !t.commutative && exprsSyntactic ops

/-- Auxiliary conjunction of `Expr.is_syntactic` over a list of operands. -/
def exprsSyntactic : List Expr → Bool
  | [] => true
  | e :: es => e.is_syntactic && exprsSyntactic es

end

/-- Modelled from the spec: the `head` of an expression — `none` for bare
wildcards, the head of the wrapped expression for variables, the symbol
itself for symbols and the operator class for operations.  The matcher only
tests heads for equality (`expression.head is None`, `expr.head == expression.head`). -/
inductive Head where
  | none
  | symbol (symtype : Nat) (name : String)
  | operation (id : Nat)
deriving DecidableEq

/-- Modelled from the spec: head computation. -/
def Expr.head : Expr → Head
  | .Symbol t n _ => .symbol t n
  | .Wildcard _ _ _ _ => .none
  | .Variable _ e _ => e.head
  | .Operation t _ _ => .operation t.id

/-- Modelled from the spec (§6): `Operation.from_args` constructs a fresh
operation of the given operator type from the given operands. -/
def OpType.from_args (t : OpType) (args : List Expr) : Expr :=
  .Operation t args none

/-- Source: `isinstance(e, symbol_type)` for a symbol subtype tag: `e` must be a
symbol carrying that tag. -/
def isSymbolInstance (e : Expr) (t : Nat) : Bool :=
  match e with
  | .Symbol t' _ _ => t' = t
  | _ => false

/-- Modelled from the spec (§3): a substitution value is a single expression
or an ordered sequence of expressions (Python tuples and lists are both
modelled as `seq`). -/
inductive SubstVal where
  | single (e : Expr)
  | seq (es : List Expr)
deriving DecidableEq

/-- Modelled from the spec (§3, §4.5): a substitution is a mapping from
variable names to values.  It is embedded as an insertion-ordered
association list, mirroring a Python `dict`.  The key is optional because
the commutative matcher uses `None` as the name of the unnamed-wildcard
slot. -/
abbrev Substitution := List (Option String × SubstVal)

/-- First binding of a key, if any (Python `subst[name]` / `name in subst`). -/
def Substitution.find? : Substitution → Option String → Option SubstVal
  | [], _ => none
  | (k, v) :: rest, k' => if k = k' then some v else Substitution.find? rest k'

/-- Python `name in subst`. -/
def Substitution.contains (s : Substitution) (k : Option String) : Bool :=
  (Substitution.find? s k).isSome

/-- Python `subst[name] = value`: overwrite in place if the key exists
(keeping its position), else append. -/
def Substitution.set : Substitution → Option String → SubstVal → Substitution
  | [], k, v => [(k, v)]
  | (k', v') :: rest, k, v =>
      if k' = k then (k, v) :: rest else (k', v') :: Substitution.set rest k v

/-- Modelled from the spec (§3): `union(other)` — pointwise extension of a
copy of `s` by the bindings of `other`; fails on any conflict (a key bound
to a different value on both sides). -/
def Substitution.union : Substitution → Substitution → Except String Substitution
  | s, [] => .ok s
  | s, (k, v) :: rest =>
      match Substitution.find? s k with
      | some v' => if v' = v then Substitution.union s rest else .error "Substitution conflict"
      | none => Substitution.union (s ++ [(k, v)]) rest

/-- Modelled from the spec (§9, the external `multiset` library): a multiset
is a mapping from elements to positive multiplicities, embedded as an
insertion-ordered association list like the dict-backed Python `Multiset`. -/
abbrev Mset (α : Type) := List (α × Nat)

/-- Multiplicity of an element (0 when absent). -/
def Mset.get [DecidableEq α] : Mset α → α → Nat
  | [], _ => 0
  | (y, c) :: rest, x => if y = x then c else Mset.get rest x

/-- Source: `m[x] += k`: increment in place, appending the key if new. -/
def Mset.incr [DecidableEq α] : Mset α → α → Nat → Mset α
  | [], x, k => [(x, k)]
  | (y, c) :: rest, x, k =>
      if y = x then (y, c + k) :: rest else (y, c) :: Mset.incr rest x k

/-- Source: `Multiset(iterable)`: count the elements in order. -/
def Mset.ofList [DecidableEq α] (l : List α) : Mset α :=
  l.foldl (fun m x => Mset.incr m x 1) []

/-- Source: `len(multiset)`: total multiplicity. -/
def Mset.card : Mset α → Nat
  | [] => 0
  | (_, c) :: rest => c + Mset.card rest

/-- Multiset difference: keep `m₁`'s keys with multiplicity `m₁[x] − m₂[x]`
when positive. -/
def Mset.sub [DecidableEq α] (m₁ m₂ : Mset α) : Mset α :=
  m₁.filterMap fun p =>
    let c' := p.2 - Mset.get m₂ p.1
    if c' = 0 then none else some (p.1, c')

/-- Multiset inclusion `m₁ ⊆ m₂`. -/
def Mset.le [DecidableEq α] (m₁ m₂ : Mset α) : Bool :=
  m₁.all fun p => p.2 ≤ Mset.get m₂ p.1

/-- Scalar multiplication (`multiset * k`); `k = 0` gives the empty multiset. -/
def Mset.scale (m : Mset α) (k : Nat) : Mset α :=
  if k = 0 then [] else m.map fun p => (p.1, p.2 * k)

/-- Multiset sum (`m₁ + m₂`): update the counts of `m₁`, appending new keys. -/
def Mset.add [DecidableEq α] (m₁ m₂ : Mset α) : Mset α :=
  m₂.foldl (fun acc p => Mset.incr acc p.1 p.2) m₁

/-- Source: `del m[x]`: drop a key entirely. -/
def Mset.erase [DecidableEq α] (m : Mset α) (x : α) : Mset α :=
  m.filter fun p => !decide (p.1 = x)

/-- The distinct keys, in order. -/
def Mset.keys (m : Mset α) : List α := m.map (·.1)

/-- Iteration of a multiset with multiplicity (Python `for e in multiset`). -/
def Mset.elems (m : Mset α) : List α :=
  m.flatMap fun p => List.replicate p.2 p.1

mutual

/-- Interpretation of a constraint under an environment `cenv` giving the
meaning of the base constraints; a composite is the conjunction of its
parts. -/
def evalConstraint (cenv : Nat → Substitution → Bool) : Constraint → Substitution → Bool
  | .base i, s => cenv i s
  | .multi cs, s => evalConstraintList cenv cs s

/-- Conjunction of a list of constraints. -/
def evalConstraintList (cenv : Nat → Substitution → Bool) : List Constraint → Substitution → Bool
  | [], _ => true
  | c :: cs, s => evalConstraint cenv c s && evalConstraintList cenv cs s

end

/-- Source: `constraint is None or constraint(subst)` — the guard used throughout the
matcher. -/
def checkConstraint (cenv : Nat → Substitution → Bool) :
    Option Constraint → Substitution → Bool
  | none, _ => true
  | some c, s => evalConstraint cenv c s

/-- Source: `VarInfo`: the `(min_count, constraint)` information stored per variable
name during classification (`common.py`, line 17). -/
structure VarInfo where
  min_count : Nat
  constraint : Option Constraint
deriving DecidableEq

/-- The variable-info dictionaries, embedded as insertion-ordered association
lists keyed like the substitutions (the key is optional because
`_update_var_info` defends against a `None` name). -/
abbrev Infos := List (Option String × VarInfo)

/-- Dictionary lookup on an info table. -/
def Infos.find? : Infos → Option String → Option VarInfo
  | [], _ => none
  | (k, v) :: rest, k' => if k = k' then some v else Infos.find? rest k'

/-- Lookup with the Python `KeyError` case defaulted (the matcher only looks
up names that the classifier has stored). -/
def Infos.get (infos : Infos) (k : Option String) : VarInfo :=
  (Infos.find? infos k).getD ⟨0, none⟩

/-- Source: `infos[name] = info`: overwrite in place keeping the position, else
append. -/
def Infos.set : Infos → Option String → VarInfo → Infos
  | [], k, v => [(k, v)]
  | (k', v') :: rest, k, v =>
      if k' = k then (k, v) :: rest else (k', v') :: Infos.set rest k v

/-- Source: `CommutativePatternsParts._update_var_info` (`common.py`, lines 139-150).
The two `assert` statements become `Except.error`.  Note that when the new
occurrence has no constraint the table is left untouched, and that when the
old stored constraint is `None` the new constraint is stored directly
(which coincides with what the null-safe multi-constraint factory returns). -/
def update_var_info (infos : Infos) (name : Option String) (count : Nat)
    (constraint : Option Constraint) : Except String Infos :=
  match Infos.find? infos name with
  | none => .ok (infos ++ [(name, ⟨count, constraint⟩)])
  | some existing_info =>
      if existing_info.min_count = count then
        match constraint with
        | none => .ok infos
        | some c =>
            if name = none then .error "assert name is not None"
            else
              let c' : Option Constraint :=
                match existing_info.constraint with
                | none => some c
                | some old => MultiConstraint.create [some old, some c]
              .ok (Infos.set infos name ⟨count, c'⟩)
      else .error "assert existing_info.min_count == count"

/-- Source: `CommutativePatternsParts` (`common.py`, lines 20-137): the operands of a
commutative pattern classified into buckets, with precomputed lengths. -/
structure CommutativePatternsParts where
  operation : OpType
  length : Nat
  constant : Mset Expr
  syntactic : Mset Expr
  sequence_variables : Mset (Option String)
  sequence_variable_infos : Infos
  fixed_variables : Mset (Option String)
  fixed_variable_infos : Infos
  rest : Mset Expr
  sequence_variable_min_length : Nat
  fixed_variable_length : Nat
  wildcard_min_length : Nat
  wildcard_fixed : Option Bool

/-- The empty classification state at the start of
`CommutativePatternsParts.__init__`. -/
def CommutativePatternsParts.empty (operation : OpType) (length : Nat) :
    CommutativePatternsParts :=
  { operation := operation, length := length, constant := [], syntactic := [],
    sequence_variables := [], sequence_variable_infos := [],
    fixed_variables := [], fixed_variable_infos := [], rest := [],
    sequence_variable_min_length := 0, fixed_variable_length := 0,
    wildcard_min_length := 0, wildcard_fixed := none }

/-- One iteration of the classification loop of
`CommutativePatternsParts.__init__` (`common.py`, lines 111-137).  A
`Variable` whose wrapped expression is not a `Wildcard` would raise an
`AttributeError` on `wc.fixed_size` in Python; this is the `Except.error`
branch. -/
def CommutativePatternsParts.addExpr (p : CommutativePatternsParts)
    (expression : Expr) : Except String CommutativePatternsParts :=
  if expression.is_constant then
    .ok { p with constant := Mset.incr p.constant expression 1 }
  else if expression.head = Head.none then
    match expression with
    | .Variable name inner vconstraint =>
        match inner with
        | .Wildcard mc fs _ _ =>
            if fs then
              match update_var_info p.fixed_variable_infos (some name) mc vconstraint with
              | .error e => .error e
              | .ok infos =>
                  .ok { p with
                    fixed_variables := Mset.incr p.fixed_variables (some name) 1,
                    fixed_variable_infos := infos,
                    fixed_variable_length := p.fixed_variable_length + mc }
            else
              match update_var_info p.sequence_variable_infos (some name) mc vconstraint with
              | .error e => .error e
              | .ok infos =>
                  .ok { p with
                    sequence_variables := Mset.incr p.sequence_variables (some name) 1,
                    sequence_variable_infos := infos,
                    sequence_variable_min_length := p.sequence_variable_min_length + mc }
        | _ => .error "AttributeError: no fixed_size"
    | .Wildcard mc fs _ _ =>
        .ok { p with
          wildcard_min_length := p.wildcard_min_length + mc,
          wildcard_fixed :=
            match p.wildcard_fixed with
            | none => some fs
            | some b => some (b && fs) }
    | _ => .error "unreachable: head is None only for wildcards"
  else if expression.is_syntactic then
    .ok { p with syntactic := Mset.incr p.syntactic expression 1 }
  else
    .ok { p with rest := Mset.incr p.rest expression 1 }

/-- The classification loop over all operands. -/
def CommutativePatternsParts.initGo (p : CommutativePatternsParts) :
    List Expr → Except String CommutativePatternsParts
  | [] => .ok p
  | e :: es =>
      match CommutativePatternsParts.addExpr p e with
      | .error msg => .error msg
      | .ok p' => CommutativePatternsParts.initGo p' es

/-- Source: `CommutativePatternsParts.__init__`: classify the operand list of a
commutative pattern. -/
def CommutativePatternsParts.mkParts (operation : OpType) (expressions : List Expr) :
    Except String CommutativePatternsParts :=
  CommutativePatternsParts.initGo
    (CommutativePatternsParts.empty operation expressions.length) expressions

/-- An operand is an unnamed wildcard exactly when it is a bare `Wildcard`
(such an operand is never constant and has no head). -/
def Expr.isUnnamedWildcard : Expr → Bool
  | .Wildcard _ _ _ _ => true
  | _ => false

/-- The number of unnamed-wildcard operands of a pattern. -/
def countUnnamedWildcards (l : List Expr) : Nat :=
  l.countP Expr.isUnnamedWildcard

/-- The total cardinality of the five multiset buckets of a classification. -/
def CommutativePatternsParts.bucketCards (p : CommutativePatternsParts) : Nat :=
  Mset.card p.constant + Mset.card p.syntactic + Mset.card p.rest +
    Mset.card p.sequence_variables + Mset.card p.fixed_variables

/-- A matcher, as passed around by the source (`common.py`, line 16): subjects,
pattern and substitution to a lazy sequence of substitutions.  A raised
condition escaping the generator is an `Except.error`. -/
abbrev Matcher := List Expr → Expr → Substitution → Except String (List Substitution)

/-- Flat-map over a list with an `Except`-valued function, propagating the
first raised condition (the behavior of exhausting nested Python
generators). -/
def flatMapE : List α → (α → Except String (List β)) → Except String (List β)
  | [], _ => .ok []
  | x :: xs, f =>
      match f x with
      | .error e => .error e
      | .ok ys =>
          match flatMapE xs f with
          | .error e => .error e
          | .ok zs => .ok (ys ++ zs)

/-- Modelled from the spec (§9, `iterator_chain` of `..utils` is not among
the sources): the state-chaining enumerator.  Starting from the initial
state, each factory is applied to every state produced by the previous one;
the depth-first leaves are produced in order. -/
def iterator_chain : α → List (α → Except String (List α)) → Except String (List α)
  | init, [] => .ok [init]
  | init, f :: fs =>
      match f init with
      | .error e => .error e
      | .ok states => flatMapE states fun s => iterator_chain s fs

/-- Modelled from the spec (§4.3 step 2, `integer_partition_vector_iter` of
`..utils` is not among the sources): all non-negative integer vectors of
length `k` summing to `n`, lexicographically. -/
def integer_partition_vector_iter : Nat → Nat → List (List Nat)
  | n, 0 => if n = 0 then [[]] else []
  | n, k + 1 =>
      (List.range (n + 1)).flatMap fun i =>
        (integer_partition_vector_iter (n - i) k).map (i :: ·)

/-- Modelled from the spec (§4.4.3.b, `fixed_integer_vector_iter` of
`..utils` is not among the sources): all non-negative integer vectors
bounded componentwise by `maxima` and summing to `total`. -/
def fixed_integer_vector_iter : List Nat → Nat → List (List Nat)
  | [], n => if n = 0 then [[]] else []
  | m :: ms, n =>
      (List.range (min m n + 1)).flatMap fun i =>
        (fixed_integer_vector_iter ms (n - i)).map (i :: ·)

/-- Source: `VariableWithCount` of `..utils`: a sequence-variable slot — its name
(`none` for the unnamed-wildcard slot), its multiplicity in the pattern and
its minimum length. -/
structure VariableWithCount where
  name : Option String
  count : Nat
  minimum : Nat

/-- Modelled from the spec: comparison of booleans (`false < true`). -/
def compareBool : Bool → Bool → Ordering
  | false, false => .eq
  | false, true => .lt
  | true, false => .gt
  | true, true => .eq

/-- Modelled from the spec: comparison of optional numbers (`none` first). -/
def compareOptNat : Option Nat → Option Nat → Ordering
  | none, none => .eq
  | none, some _ => .lt
  | some _, none => .gt
  | some a, some b => compare a b

mutual

/-- Modelled from the spec (§9): expressions support a total order, used
only to materialize sequence-variable bindings in a canonical sorted
order.  Any fixed order is adequate; this one is structural. -/
def compareExpr : Expr → Expr → Ordering
  | .Symbol t n _, .Symbol t' n' _ => (compare t t').then (compare n n')
  | .Symbol _ _ _, _ => .lt
  | _, .Symbol _ _ _ => .gt
  | .Wildcard mc fs st _, .Wildcard mc' fs' st' _ =>
      (compare mc mc').then ((compareBool fs fs').then (compareOptNat st st'))
  | .Wildcard _ _ _ _, _ => .lt
  | _, .Wildcard _ _ _ _ => .gt
  | .Variable n e _, .Variable n' e' _ => (compare n n').then (compareExpr e e')
  | .Variable _ _ _, _ => .lt
  | _, .Variable _ _ _ => .gt
  | .Operation t ops _, .Operation t' ops' _ =>
      (compare t.id t'.id).then (compareExprList ops ops')

/-- Lexicographic extension of `compareExpr` to operand lists. -/
def compareExprList : List Expr → List Expr → Ordering
  | [], [] => .eq
  | [], _ :: _ => .lt
  | _ :: _, [] => .gt
  | a :: as, b :: bs => (compareExpr a b).then (compareExprList as bs)

end

/-- Insertion into a list sorted by `compareExpr`. -/
def insertExprSorted (x : Expr) : List Expr → List Expr
  | [] => [x]
  | y :: ys =>
      if compareExpr x y = Ordering.gt then y :: insertExprSorted x ys else x :: y :: ys

/-- Python `sorted(exprs)` under the total order on expressions. -/
def sortExprs (l : List Expr) : List Expr := l.foldr insertExprSorted []

/-- The inner expression of an operand: a `Variable` is unwrapped once,
anything else is itself (`operand.expression if isinstance(operand, Variable)
else operand`). -/
def operandInner : Expr → Expr
  | .Variable _ e _ => e
  | e => e

/-- Source: `match_wildcard` (`common.py`, lines 194-203).  A fixed-size wildcard
requires exact arity, a sequence wildcard at least `min_count` subjects; a
`SymbolWildcard` additionally requires the first subject to be of the
required symbol subtype.  (With an empty subjects list that Python indexing
would raise; the case is unreachable because a `SymbolWildcard` always has
`min_count = 1`, and the embedding yields nothing there.) -/
def match_wildcard (cenv : Nat → Substitution → Bool) (expressions : List Expr)
    (min_count : Nat) (fixed_size : Bool) (symbol_type : Option Nat)
    (constraint : Option Constraint) (subst : Substitution) : List Substitution :=
  if fixed_size then
    if expressions.length = min_count then
      match symbol_type with
      | some t =>
          match expressions with
          | [] => []
          | e :: _ =>
              if isSymbolInstance e t then
                if checkConstraint cenv constraint subst then [subst] else []
              else []
      | none => if checkConstraint cenv constraint subst then [subst] else []
    else []
  else
    if min_count ≤ expressions.length then
      if checkConstraint cenv constraint subst then [subst] else []
    else []

/-- The candidate binding value of `match_variable` (`common.py`, lines
177-181): the single subject when there is exactly one and the inner
expression is not a sequence wildcard, else the subject tuple. -/
def match_variable_value (expressions : List Expr) (inner : Expr) : SubstVal :=
  match expressions with
  | [e] =>
      if (match inner with | .Wildcard _ fs _ _ => fs | _ => true) then .single e
      else .seq [e]
  | es => .seq es

/-- Source: `match_variable` (`common.py`, lines 175-191).  An already-bound name
must agree with the stored value; a fresh name is bound on a copy of each
substitution the inner match produces, subject to the variable's
constraint. -/
def match_variable (cenv : Nat → Substitution → Bool) (expressions : List Expr)
    (name : String) (inner : Expr) (constraint : Option Constraint)
    (subst : Substitution) (matcher : Matcher) : Except String (List Substitution) :=
  if Substitution.contains subst (some name) then
    if Substitution.find? subst (some name) =
        some (match_variable_value expressions inner) then
      if checkConstraint cenv constraint subst then .ok [subst] else .ok []
    else .ok []
  else
    match matcher expressions inner subst with
    | .error e => .error e
    | .ok results =>
        .ok (results.filterMap fun new_subst =>
          if checkConstraint cenv constraint
              (Substitution.set new_subst (some name)
                (match_variable_value expressions inner)) then
            some (Substitution.set new_subst (some name)
              (match_variable_value expressions inner))
          else none)

/-- Source: `_match_factory` (`common.py`, lines 206-211). -/
def match_factory (expressions : List Expr) (operand : Expr) (matcher : Matcher) :
    Substitution → Except String (List Substitution) :=
  fun subst => matcher expressions operand subst

/-- The loop body of `_count_seq_vars` (`common.py`, lines 214-228), with the
running `remaining` as an integer so the `remaining < 0` check (the caught
`ValueError`, modelled as `none`) is faithful. -/
def count_seq_vars_go (optype : OpType) : Int → Nat → List Expr → Option (Nat × Nat)
  | remaining, sequence_var_count, [] => some (remaining.toNat, sequence_var_count)
  | remaining, sequence_var_count, operand :: ops =>
      let step : Int × Nat :=
        match operandInner operand with
        | .Wildcard mc fs _ _ =>
            (remaining - mc,
              if !fs || optype.associative then sequence_var_count + 1 else sequence_var_count)
        | _ => (remaining - 1, sequence_var_count)
      if step.1 < 0 then none else count_seq_vars_go optype step.1 step.2 ops

/-- Source: `_count_seq_vars`: the surplus operand count and the number of sequence
slots of a pattern operation. -/
def count_seq_vars (optype : OpType) (expressionsLen : Nat) (operands : List Expr) :
    Option (Nat × Nat) :=
  count_seq_vars_go optype (Int.ofNat expressionsLen) 0 operands

/-- Source: `_build_full_partition` (`common.py`, lines 231-257): split the subject
list along the pattern operands according to a composition of the surplus,
wrapping a surplus absorbed by an originally fixed-size wildcard of
min_count `m ≥ 1` into a fresh operation past the first `m − 1` operands.
(`wrap_associative = inner.fixed_size and inner.min_count` uses `min_count`
as a truthy integer, embedded as the value `wrapA` below with 0 for the
falsy cases.) -/
def build_full_partition (optype : OpType) :
    List Nat → List Expr → List Expr → List (List Expr)
  | _, _, [] => []
  | partVec, exprs, operand :: ops =>
      match operandInner operand with
      | .Wildcard mc fs _ _ =>
          if !fs || optype.associative then
            let count := mc + partVec.headD 0
            let oe := exprs.take count
            let wrapA := if fs then mc else 0
            let oe' :=
              if wrapA ≠ 0 ∧ wrapA < oe.length then
                oe.take (wrapA - 1) ++ [OpType.from_args optype (oe.drop (wrapA - 1))]
              else oe
            oe' :: build_full_partition optype partVec.tail (exprs.drop count) ops
          else
            exprs.take mc :: build_full_partition optype partVec (exprs.drop mc) ops
      | _ => exprs.take 1 :: build_full_partition optype partVec (exprs.drop 1) ops

/-- Source: `_non_commutative_match` (`common.py`, lines 260-271). -/
def non_commutative_match (expressions : List Expr) (optype : OpType)
    (operands : List Expr) (subst : Substitution) (matcher : Matcher) :
    Except String (List Substitution) :=
  match count_seq_vars optype expressions.length operands with
  | none => .ok []
  | some (remaining, sequence_var_count) =>
      flatMapE (integer_partition_vector_iter remaining sequence_var_count) fun part =>
        let partition := build_full_partition optype part expressions operands
        let factories := (partition.zip operands).map fun p => match_factory p.1 p.2 matcher
        iterator_chain subst factories

/-- Source: `_variables_with_counts` (`common.py`, lines 384-385). -/
def variables_with_counts (vars : Mset (Option String)) (infos : Infos) :
    List VariableWithCount :=
  vars.map fun p => ⟨p.1, p.2, (Infos.get infos p.1).min_count⟩

/-- Source: `_fixed_expr_factory` (`common.py`, lines 388-396): try every distinct
remaining subject with the same head against a rest-expression of the
pattern. -/
def fixed_expr_factory (cenv : Nat → Substitution → Bool) (expression : Expr)
    (matcher : Matcher) :
    Mset Expr × Substitution → Except String (List (Mset Expr × Substitution)) :=
  fun st =>
    flatMapE (Mset.keys st.1) fun expr =>
      if expr.head = expression.head then
        match matcher [expr] expression st.2 with
        | .error e => .error e
        | .ok substs =>
            .ok (substs.filterMap fun subst =>
              if checkConstraint cenv expression.constraint subst then
                some (Mset.sub st.1 (Mset.ofList [expr]), subst)
              else none)
      else .ok []

/-- Source: `_fixed_var_iter_factory` (`common.py`, lines 399-433): consume the
operands of a fixed-size variable occurring `count` times with length
`length`, either by checking an existing binding or by enumerating
candidate bindings (single expressions when `length = 1`, bounded integer
vectors otherwise). -/
def fixed_var_iter_factory (cenv : Nat → Substitution → Bool) (var : Option String)
    (count : Nat) (length : Nat) (constraint : Option Constraint) :
    Mset Expr × Substitution → List (Mset Expr × Substitution) :=
  fun st =>
    let expressions := st.1
    let substitution := st.2
    match Substitution.find? substitution var with
    | some v =>
        let value : List Expr := match v with | .single e => [e] | .seq es => es
        let existing := Mset.scale (Mset.ofList value) count
        if Mset.le existing expressions then
          if checkConstraint cenv constraint substitution then
            [(Mset.sub expressions existing, substitution)]
          else []
        else []
    | none =>
        if length = 1 then
          expressions.flatMap fun p =>
            if count ≤ p.2 then
              match var with
              | some _ =>
                  let new_substitution := Substitution.set substitution var (.single p.1)
                  if checkConstraint cenv constraint new_substitution then
                    [(Mset.sub expressions [(p.1, count)], new_substitution)]
                  else []
              | none => [(Mset.sub expressions [(p.1, count)], substitution)]
            else []
        else
          let counts := expressions.map fun p => p.2 / count
          (fixed_integer_vector_iter counts length).flatMap fun subset =>
            let sub_counter : Mset Expr :=
              (expressions.zip subset).filterMap fun q =>
                if q.2 = 0 then none else some (q.1.1, q.2 * count)
            match var with
            | some _ =>
                let new_substitution :=
                  Substitution.set substitution var (.seq (Mset.elems sub_counter))
                if checkConstraint cenv constraint new_substitution then
                  [(Mset.sub expressions sub_counter, new_substitution)]
                else []
            | none => [(Mset.sub expressions sub_counter, substitution)]

/-- Modelled from the spec (component C4, §4.4.3.d;
`commutative_sequence_variable_partition_iter` is in `..utils`, not among
the sources): all sub-multisets `t` with `t[x] * c ≤ E[x]` for every key
`x` of `E`. -/
def subMultisetsDiv : Mset Expr → Nat → List (Mset Expr)
  | [], _ => [[]]
  | (x, n) :: rest, c =>
      (List.range (n / c + 1)).flatMap fun j =>
        (subMultisetsDiv rest c).map fun t =>
          if j = 0 then t else (x, j) :: t

/-- Modelled from the spec (component C4, §4.4.3.d): enumerate every
assignment of a multiset to each slot such that each slot receives at least
its minimum length and the assignments, counted with the slots'
multiplicities, sum to `E` exactly. -/
def commutative_sequence_variable_partition_iter (E : Mset Expr) :
    List VariableWithCount → List (List (Option String × Mset Expr))
  | [] => if Mset.card E = 0 then [[]] else []
  | v :: vars =>
      (subMultisetsDiv E v.count).flatMap fun t =>
        if v.minimum ≤ Mset.card t then
          (commutative_sequence_variable_partition_iter
              (Mset.sub E (Mset.scale t v.count)) vars).map ((v.name, t) :: ·)
        else []

/-- The pre-bind check of fixed variables (`common.py`, lines 323-337): for
every fixed variable already bound in the substitution, subtract the
multiset of operands its binding consumes (`none` models the early `return`
when the subjects cannot cover it) and drop it from the unresolved set. -/
def prebind_fixed_vars (operation : OpType) :
    List (Option String × Nat) → Mset Expr → Mset (Option String) → Substitution →
      Option (Mset Expr × Mset (Option String))
  | [], remaining, fixed_vars, _ => some (remaining, fixed_vars)
  | (name, count) :: items, remaining, fixed_vars, subst =>
      match Substitution.find? subst name with
      | none => prebind_fixed_vars operation items remaining fixed_vars subst
      | some v =>
          let needed_count : Mset Expr :=
            match v with
            | .single (.Operation t ops c) =>
                if operation.associative ∧ t = operation then Mset.ofList ops
                else Mset.ofList [.Operation t ops c]
            | .single e => Mset.ofList [e]
            | .seq es => Mset.ofList es
          let needed_count := if 1 < count then Mset.scale needed_count count else needed_count
          if Mset.le needed_count remaining then
            prebind_fixed_vars operation items (Mset.sub remaining needed_count)
              (Mset.erase fixed_vars name) subst
          else none

/-- The rest-expressions considered by `_matches_from_matching`
(`common.py`, line 317). -/
def mfm_rest_expr (pattern : CommutativePatternsParts) (include_syntactic : Bool) :
    Mset Expr :=
  if include_syntactic then Mset.add pattern.rest pattern.syntactic else pattern.rest

/-- The needed minimum length of `_matches_from_matching`
(`common.py`, line 318). -/
def mfm_needed_length (pattern : CommutativePatternsParts) (rest_expr : Mset Expr) : Nat :=
  Mset.card pattern.sequence_variables + Mset.card pattern.fixed_variables +
    Mset.card rest_expr + pattern.wildcard_min_length

/-- The factory list built by `_matches_from_matching` (`common.py`, lines
339-349): one factory per rest-expression (with multiplicity) and, for a
non-associative operator, one per unresolved fixed variable plus one for a
fixed unnamed wildcard. -/
def mfm_factories (cenv : Nat → Substitution → Bool)
    (pattern : CommutativePatternsParts) (matcher : Matcher) (rest_expr : Mset Expr)
    (fixed_vars : Mset (Option String)) :
    List (Mset Expr × Substitution → Except String (List (Mset Expr × Substitution))) :=
  (Mset.elems rest_expr).map (fun e => fixed_expr_factory cenv e matcher)
  ++ (if !pattern.operation.associative then
        (fixed_vars.map fun p =>
          let info := Infos.get pattern.fixed_variable_infos p.1
          fun st =>
            Except.ok (fixed_var_iter_factory cenv p.1 p.2 info.min_count info.constraint st))
        ++ (if pattern.wildcard_fixed = some true then
              [fun st =>
                Except.ok (fixed_var_iter_factory cenv none 1 pattern.wildcard_min_length none st)]
            else [])
      else [])

/-- The final union-and-filter step of `_matches_from_matching`
(`common.py`, lines 376-381): union the allocated bindings with the chained
substitution (a conflict prunes the branch) and apply the combined
constraint. -/
def mfm_union_step (cenv : Nat → Substitution → Bool) (combined : Option Constraint)
    (s subst : Substitution) : Option Substitution :=
  match Substitution.union s subst with
  | .error _ => none
  | .ok result => if checkConstraint cenv combined result then some result else none

/-- The per-chained-state sequence-variable allocation of
`_matches_from_matching` (`common.py`, lines 354-381): allocate the
sequence-variable slots by multiset partition, materialize each binding
sorted, re-wrap fixed variables bound as sequences under associativity,
and union with the chained substitution (conflicts prune the branch, the
combined constraint filters the result). -/
def mfm_allocate (cenv : Nat → Substitution → Bool)
    (pattern : CommutativePatternsParts) (fixed_vars : Mset (Option String))
    (state : Mset Expr × Substitution) : List Substitution :=
  let rem_expr := state.1
  let subst := state.2
  let sequence_vars :=
    variables_with_counts pattern.sequence_variables pattern.sequence_variable_infos
  let constraints := (Mset.elems pattern.sequence_variables).map
    fun name => (Infos.get pattern.sequence_variable_infos name).constraint
  let sequence_vars := sequence_vars ++
    (if pattern.operation.associative then
        variables_with_counts fixed_vars pattern.fixed_variable_infos
        ++ (if pattern.wildcard_fixed = some true then
              [⟨none, 1, pattern.wildcard_min_length⟩] else [])
      else [])
  let constraints := constraints ++
    (if pattern.operation.associative then
        (Mset.elems fixed_vars).map
          fun name => (Infos.get pattern.fixed_variable_infos name).constraint
      else [])
  let sequence_vars := sequence_vars ++
    (if pattern.wildcard_fixed = some false then
        [(⟨none, 1, pattern.wildcard_min_length⟩ : VariableWithCount)] else [])
  let combined_constraint := MultiConstraint.create constraints
  (commutative_sequence_variable_partition_iter rem_expr sequence_vars).filterMap
    fun sequence_subst =>
      let s : Substitution := sequence_subst.map
        fun q => (q.1, SubstVal.seq (sortExprs (Mset.elems q.2)))
      let s :=
        if pattern.operation.associative then
          (Mset.keys fixed_vars).foldl (fun s v =>
            let l := (Infos.get pattern.fixed_variable_infos v).min_count
            match Substitution.find? s v with
            | some (.seq value) =>
                if l < value.length then
                  Substitution.set s v
                    (.single (OpType.from_args pattern.operation value))
                else
                  match value with
                  | [e] => if l = 1 then Substitution.set s v (.single e) else s
                  | _ => s
            | _ => s) s
        else s
      mfm_union_step cenv combined_constraint s subst

/-- Source: `_matches_from_matching` (`common.py`, lines 315-381): the finisher of
the commutative matcher — pre-bind fixed variables, chain the factories,
then allocate the sequence variables for every surviving state. -/
def matches_from_matching (cenv : Nat → Substitution → Bool) (subst : Substitution)
    (remaining : Mset Expr) (pattern : CommutativePatternsParts) (matcher : Matcher)
    (include_syntactic : Bool) : Except String (List Substitution) :=
  if Mset.card remaining <
      mfm_needed_length pattern (mfm_rest_expr pattern include_syntactic) then .ok []
  else
    match prebind_fixed_vars pattern.operation pattern.fixed_variables remaining
        pattern.fixed_variables subst with
    | none => .ok []
    | some (remaining, fixed_vars) =>
        match iterator_chain (remaining, subst)
            (mfm_factories cenv pattern matcher
              (mfm_rest_expr pattern include_syntactic) fixed_vars) with
        | .error e => .error e
        | .ok chained => .ok (chained.flatMap (mfm_allocate cenv pattern fixed_vars))

/-- Source: `match_commutative_operation` (`common.py`, lines 287-312) along the
`syntactic_matcher=None` path (the syntactic fast-path hook is an external
collaborator): raise unless every subject is constant, subtract the
constant pattern operands as multisets, and run the finisher. -/
def match_commutative_operation (cenv : Nat → Substitution → Bool)
    (operands : List Expr) (pattern : CommutativePatternsParts)
    (substitution : Substitution) (matcher : Matcher) :
    Except String (List Substitution) :=
  if operands.any (fun e => !e.is_constant) then
    .error "All given expressions must be constant."
  else if Mset.le pattern.constant (Mset.ofList operands) then
    matches_from_matching cenv substitution
      (Mset.sub (Mset.ofList operands) pattern.constant) pattern matcher true
  else .ok []

/-- Source: `match_operation` (`common.py`, lines 274-284): empty pattern operands
match only empty subjects; otherwise dispatch on commutativity. -/
def match_operation (cenv : Nat → Substitution → Bool) (expressions : List Expr)
    (optype : OpType) (operands : List Expr) (subst : Substitution) (matcher : Matcher) :
    Except String (List Substitution) :=
  if operands.isEmpty then
    .ok (if expressions.isEmpty then [subst] else [])
  else if !optype.commutative then
    non_commutative_match expressions optype operands subst matcher
  else
    match CommutativePatternsParts.mkParts optype operands with
    | .error e => .error e
    | .ok parts => match_commutative_operation cenv expressions parts subst matcher

/-- Source: `match` (`common.py`, lines 153-172), the public entry point, with a fuel
parameter tying the recursive knot (the source passes `match` itself as the
`matcher`); exhausted fuel is an error, so an `ok` result is a completed
enumeration. -/
def match' (cenv : Nat → Substitution → Bool) :
    Nat → List Expr → Expr → Substitution → Except String (List Substitution)
  | 0, _, _, _ => .error "recursion fuel exhausted"
  | fuel + 1, expressions, pattern, subst =>
      match pattern with
      | .Variable name inner c =>
          match_variable cenv expressions name inner c subst (match' cenv fuel)
      | .Wildcard mc fs st c => .ok (match_wildcard cenv expressions mc fs st c subst)
      | .Symbol t n c =>
          match expressions with
          | [.Symbol t' n' _] =>
              if t' = t ∧ n' = n then
                if checkConstraint cenv c subst then .ok [subst] else .ok []
              else .ok []
          | _ => .ok []
      | .Operation t ops c =>
          match expressions with
          | [.Operation t' subjOps _] =>
              if t' = t then
                match match_operation cenv subjOps t ops subst (match' cenv fuel) with
                | .error e => .error e
                | .ok results => .ok (results.filter fun result => checkConstraint cenv c result)
              else .ok []
          | _ => .ok []

/-! ### Extension order on substitutions, and the specification-side
semantics used to judge the soundness sentence -/

/-- Extension order: `σ` extends `τ` (written σ ⊇ τ in the spec): every binding of `τ` is
present in `σ` with the same value. -/
def SubstExtends (σ τ : Substitution) : Prop :=
  ∀ k v, Substitution.find? τ k = some v → Substitution.find? σ k = some v

/-- A matcher all of whose yielded substitutions extend its input
substitution. -/
def MatcherExtends (m : Matcher) : Prop :=
  ∀ es p s r, m es p s = .ok r → ∀ σ ∈ r, SubstExtends σ s

mutual

/-- Following the spec's words (§8 *Soundness*): substituting a substitution
into a pattern — a bound variable is replaced by its value (a sequence
value is spliced into the surrounding operand list), everything else is
rebuilt.  This is the specification-side definition used to compare the
code's yield against the spec's soundness sentence; it is not part of the
source. -/
def substApply (σ : Substitution) : Expr → List Expr
  | .Symbol t n c => [.Symbol t n c]
  | .Wildcard mc fs st c => [.Wildcard mc fs st c]
  | .Variable n e c =>
      match Substitution.find? σ (some n) with
      | some (.single x) => [x]
      | some (.seq xs) => xs
      | none => [.Variable n e c]
  | .Operation t ops c => [.Operation t (substApplyList σ ops) c]

/-- Splicing substitution application over an operand list. -/
def substApplyList (σ : Substitution) : List Expr → List Expr
  | [] => []
  | e :: es => substApply σ e ++ substApplyList σ es

end

/-- One level of associative flattening: operands that are operations with
the same operator are spliced. -/
def flattenOps (t : OpType) (ops : List Expr) : List Expr :=
  ops.flatMap fun e =>
    match e with
    | .Operation t' ops' _ => if t' = t then ops' else [e]
    | e => [e]

mutual

/-- Following the spec's words (§8 *Soundness*): the normal form of a term
under the declared associativity/commutativity — associative operands are
flattened and commutative operands are compared as multisets (here:
sorted).  Specification-side definition, not part of the source. -/
def acNorm : Expr → Expr
  | .Operation t ops c =>
      let ops1 := acNormList ops
      let ops2 := if t.associative then flattenOps t ops1 else ops1
      let ops3 := if t.commutative then sortExprs ops2 else ops2
      .Operation t ops3 c
  | e => e

/-- Lifting of `acNorm` over an operand list. -/
def acNormList : List Expr → List Expr
  | [] => []
  | e :: es => acNorm e :: acNormList es

end

/-- Equivalence of two terms under the declared associativity and
commutativity (specification-side). -/
def acEquiv (a b : Expr) : Bool :=
  decide (acNorm a = acNorm b)

/-- A concrete constraint environment: base constraint 0 holds exactly when
the name `x` is unbound. -/
def cenvCE : Nat → Substitution → Bool := fun i s =>
  if i = 0 then !(Substitution.contains s (some "x")) else true

/-- A concrete non-associative, non-commutative operator. -/
def opCE : OpType := ⟨2, false, false⟩

/-- The pattern `g(_[constraint 0], x_)`: a constrained fixed wildcard
followed by the fixed variable `x`. -/
def patternCE : Expr :=
  .Operation opCE
    [.Wildcard 1 true none (some (.base 0)),
     .Variable "x" (.Wildcard 1 true none none) none] none

/-- The subject `g(a, b)`. -/
def subjectCE : Expr :=
  .Operation opCE [.Symbol 0 "a" none, .Symbol 0 "b" none] none

/-- The single substitution the matcher yields on the example: `{x → b}`. -/
def sigmaCE : Substitution := [(some "x", SubstVal.single (.Symbol 0 "b" none))]

/-! ### Basic equations for the entry point -/

theorem match'_symbol_eq (cenv : Nat → Substitution → Bool) (fuel : Nat) (es : List Expr)
    (t : Nat) (n : String) (c : Option Constraint) (subst : Substitution) :
    match' cenv (fuel + 1) es (Expr.Symbol t n c) subst =
      (match es with
        | [Expr.Symbol t' n' _] =>
            if t' = t ∧ n' = n then
              if checkConstraint cenv c subst then .ok [subst] else .ok []
            else .ok []
        | _ => .ok []) := rfl

theorem match'_operation_eq (cenv : Nat → Substitution → Bool) (fuel : Nat)
    (es : List Expr) (t : OpType) (ops : List Expr) (c : Option Constraint)
    (subst : Substitution) :
    match' cenv (fuel + 1) es (Expr.Operation t ops c) subst =
      (match es with
        | [Expr.Operation t' subjOps _] =>
            if t' = t then
              match match_operation cenv subjOps t ops subst (match' cenv fuel) with
              | .error e => .error e
              | .ok results =>
                  .ok (results.filter fun result => checkConstraint cenv c result)
            else .ok []
        | _ => .ok []) := rfl

/-! ### Claim theorems -/

/-- Claim C2: symbol matching — `match(subjects, s, subst)` with a `Symbol`
pattern yields `subst`, exactly once and unchanged, if and only if the
subjects list is a single symbol of the same subtype and name whose
constraint (if present) accepts `subst`; otherwise it yields nothing. -/
theorem match_symbol_spec (cenv : Nat → Substitution → Bool) (fuel : Nat)
    (es : List Expr) (t : Nat) (n : String) (c : Option Constraint) (subst : Substitution) :
    (match' cenv (fuel + 1) es (Expr.Symbol t n c) subst = .ok [subst] ↔
      ((∃ c', es = [Expr.Symbol t n c']) ∧ checkConstraint cenv c subst = true))
    ∧ (match' cenv (fuel + 1) es (Expr.Symbol t n c) subst = .ok [subst]
        ∨ match' cenv (fuel + 1) es (Expr.Symbol t n c) subst = .ok []) := by
  rw [match'_symbol_eq]
  constructor
  · match es with
    | [] => simp
    | [Expr.Wildcard _ _ _ _] => simp
    | [Expr.Variable _ _ _] => simp
    | [Expr.Operation _ _ _] => simp
    | e1 :: e2 :: rest => cases e1 <;> simp
    | [Expr.Symbol t' n' c'] =>
        by_cases heq : t' = t ∧ n' = n
        · by_cases hc : checkConstraint cenv c subst = true
          · simp [heq, hc, heq.1, heq.2]
          · simp [heq, hc]
        · simp only [if_neg heq]
          constructor
          · intro h
            simp at h
          · rintro ⟨⟨c'', hes⟩, _⟩
            obtain ⟨rfl, rfl, rfl⟩ : t' = t ∧ n' = n ∧ c' = c'' := by
              injection hes with h1 h2
              injection h1 with h1
              exact ⟨h1.symm ▸ rfl, by simp_all, by simp_all⟩
            exact absurd ⟨rfl, rfl⟩ heq
  · match es with
    | [] => exact Or.inr rfl
    | [Expr.Wildcard _ _ _ _] => exact Or.inr rfl
    | [Expr.Variable _ _ _] => exact Or.inr rfl
    | [Expr.Operation _ _ _] => exact Or.inr rfl
    | e1 :: e2 :: rest => cases e1 <;> exact Or.inr rfl
    | [Expr.Symbol t' n' c'] =>
        simp only
        split
        · split
          · exact Or.inl rfl
          · exact Or.inr rfl
        · exact Or.inr rfl

/-- Claim C2 witness: the pattern symbol `a` matches the subject symbol `a`
and yields the incoming substitution once. -/
theorem match_symbol_spec_witness :
    match' (fun _ _ => true) 1 [Expr.Symbol 0 "a" none] (Expr.Symbol 0 "a" none) []
      = .ok [[]] :=
  (match_symbol_spec (fun _ _ => true) 0 [Expr.Symbol 0 "a" none] 0 "a" none
      []).1.mpr ⟨⟨none, rfl⟩, rfl⟩

/-- Claim C3: `match_wildcard` arity rule — it yields `subst` unchanged
exactly when either the wildcard is fixed-size, the subjects list has
length exactly `min_count`, the first subject is of the required symbol
subtype in the `SymbolWildcard` case, and the constraint accepts `subst`;
or the wildcard is a sequence wildcard, the subjects list has length at
least `min_count`, and the constraint accepts `subst`.  In particular a
sequence wildcard with `min_count = 0` accepts the empty subjects list. -/
theorem match_wildcard_spec (cenv : Nat → Substitution → Bool) (es : List Expr)
    (mc : Nat) (fs : Bool) (st : Option Nat) (c : Option Constraint) (subst : Substitution) :
    (match_wildcard cenv es mc fs st c subst = [subst] ↔
      ((fs = true ∧ es.length = mc ∧
          (∀ t, st = some t → ∃ e rest, es = e :: rest ∧ isSymbolInstance e t = true) ∧
          checkConstraint cenv c subst = true)
        ∨ (fs = false ∧ mc ≤ es.length ∧ checkConstraint cenv c subst = true)))
    ∧ (match_wildcard cenv es mc fs st c subst = [subst]
        ∨ match_wildcard cenv es mc fs st c subst = [])
    ∧ (fs = false → mc = 0 → checkConstraint cenv c subst = true →
        match_wildcard cenv [] mc fs st c subst = [subst]) := by
  refine ⟨?_, ?_, ?_⟩
  · cases fs with
    | false =>
        by_cases hlen : mc ≤ es.length
        · by_cases hc : checkConstraint cenv c subst = true
          · simp [match_wildcard, hlen, hc]
          · simp [match_wildcard, hlen, hc]
        · simp [match_wildcard, hlen]
    | true =>
        by_cases hlen : es.length = mc
        · match st with
          | none =>
              by_cases hc : checkConstraint cenv c subst = true
              · simp [match_wildcard, hlen, hc]
              · simp [match_wildcard, hlen, hc]
          | some t =>
              match es with
              | [] => simp [match_wildcard, hlen]
              | e :: rest =>
                  by_cases hinst : isSymbolInstance e t = true
                  · by_cases hc : checkConstraint cenv c subst = true
                    · simp [match_wildcard, hlen, hinst, hc]
                    · simp [match_wildcard, hlen, hinst, hc]
                  · simp [match_wildcard, hlen, hinst]
        · simp [match_wildcard, hlen]
  · unfold match_wildcard
    repeat' split
    all_goals simp
  · intro hfs hmc hc
    subst hfs
    subst hmc
    unfold match_wildcard
    simp [hc]

/-- Claim C3 witness: a sequence wildcard with `min_count = 0` accepts the
empty subjects list, and a fixed-size symbol wildcard accepts a matching
singleton. -/
theorem match_wildcard_spec_witness :
    match_wildcard (fun _ _ => true) [] 0 false none none [(some "z", .single (.Symbol 0 "a" none))]
      = [[(some "z", .single (.Symbol 0 "a" none))]] :=
  (match_wildcard_spec (fun _ _ => true) [] 0 false none none
      [(some "z", .single (.Symbol 0 "a" none))]).2.2 rfl rfl rfl

/-- Claim C9: for a fixed-size `SymbolWildcard` with `min_count ≥ 2`,
`match_wildcard` checks the required symbol subtype only on the first
subject: any subjects list of the exact length whose first element is of
the required subtype yields the substitution (when the constraint
accepts), regardless of the later subjects. -/
theorem match_wildcard_symbol_first_only (cenv : Nat → Substitution → Bool)
    (e : Expr) (rest : List Expr) (mc : Nat) (t : Nat) (c : Option Constraint)
    (subst : Substitution) (hmc : 2 ≤ mc) (hlen : (e :: rest).length = mc)
    (hfirst : isSymbolInstance e t = true) (hc : checkConstraint cenv c subst = true) :
    match_wildcard cenv (e :: rest) mc true (some t) c subst = [subst] := by
  unfold match_wildcard
  simp [hlen, hfirst, hc]

/-- Claim C9 witness: a symbol wildcard of `min_count = 2` accepts a subjects
list whose second element is not a symbol at all. -/
theorem match_wildcard_symbol_first_only_witness :
    match_wildcard (fun _ _ => true)
      [Expr.Symbol 0 "a" none, Expr.Operation ⟨5, false, false⟩ [] none]
      2 true (some 0) none [] = [[]] :=
  match_wildcard_symbol_first_only (fun _ _ => true) (Expr.Symbol 0 "a" none)
    [Expr.Operation ⟨5, false, false⟩ [] none] 2 0 none [] (by decide) rfl rfl rfl

/-- Claim C7: the VarInfo update rule — a name seen for the first time stores
its `(min_count, constraint)` pair; a later occurrence asserts the stored
`min_count` equals the new one (error on mismatch), leaves the table
untouched when the new occurrence has no constraint, asserts the name is
non-null when it has one, and then replaces the stored constraint by the
conjunction of the old and the new constraints as built by the
multi-constraint factory. -/
theorem update_var_info_of_find (infos : Infos) (name : Option String) (count : Nat)
    (constraint : Option Constraint) (existing : VarInfo)
    (h : Infos.find? infos name = some existing) :
    update_var_info infos name count constraint =
      (if existing.min_count = count then
        match constraint with
        | none => .ok infos
        | some c =>
            if name = none then .error "assert name is not None"
            else
              .ok (Infos.set infos name
                ⟨count,
                  match existing.constraint with
                  | none => some c
                  | some old => MultiConstraint.create [some old, some c]⟩)
      else .error "assert existing_info.min_count == count") := by
  unfold update_var_info
  rw [h]

theorem update_var_info_spec (infos : Infos) (name : Option String) (count : Nat)
    (constraint : Option Constraint) :
    (Infos.find? infos name = none →
        update_var_info infos name count constraint =
          .ok (infos ++ [(name, ⟨count, constraint⟩)]))
    ∧ (∀ existing, Infos.find? infos name = some existing →
        (existing.min_count ≠ count →
            update_var_info infos name count constraint =
              .error "assert existing_info.min_count == count")
        ∧ (existing.min_count = count → constraint = none →
            update_var_info infos name count constraint = .ok infos)
        ∧ (∀ c, existing.min_count = count → constraint = some c → name = none →
            update_var_info infos name count constraint = .error "assert name is not None")
        ∧ (∀ c n, existing.min_count = count → constraint = some c → name = some n →
            update_var_info infos name count constraint =
              .ok (Infos.set infos name
                ⟨count, MultiConstraint.create [existing.constraint, some c]⟩))) := by
  constructor
  · intro h
    unfold update_var_info
    rw [h]
  · intro existing h
    rw [update_var_info_of_find infos name count constraint existing h]
    refine ⟨?_, ?_, ?_, ?_⟩
    · intro hne
      rw [if_neg hne]
    · intro heq hc
      subst hc
      rw [if_pos heq]
    · intro c heq hc hn
      subst hc
      subst hn
      rw [if_pos heq]
      rfl
    · intro c n heq hc hn
      subst hc
      subst hn
      rw [if_pos heq]
      simp only [reduceCtorEq, if_neg (by simp : ¬(some n = none))]
      cases hex : existing.constraint with
      | none => simp [MultiConstraint.create]
      | some old => simp [MultiConstraint.create]

/-- Claim C7 witness: a second occurrence of `x` with matching `min_count`
and a new constraint conjoins the constraints through the factory. -/
theorem update_var_info_spec_witness :
    update_var_info [(some "x", ⟨1, some (.base 0)⟩)] (some "x") 1 (some (.base 1)) =
      .ok [(some "x", ⟨1, some (.multi [.base 0, .base 1])⟩)] :=
  ((update_var_info_spec [(some "x", ⟨1, some (.base 0)⟩)] (some "x") 1
      (some (.base 1))).2 ⟨1, some (.base 0)⟩ rfl).2.2.2 (.base 1) "x" rfl rfl rfl

/-- Claim C5: associative re-wrapping in the non-commutative matcher — in
`_build_full_partition` over an associative operator, a slot that was
originally a fixed-size wildcard of `min_count = m ≥ 1` and absorbed more
than `m` operands becomes the first `m − 1` absorbed operands unchanged
followed by one fresh operation of the pattern's operator type (built via
`from_args`) containing the remaining absorbed operands; when `m = 0` the
absorbed operands are kept unchanged. -/
theorem build_full_partition_cons (optype : OpType) (partVec : List Nat)
    (exprs : List Expr) (operand : Expr) (ops : List Expr) :
    build_full_partition optype partVec exprs (operand :: ops) =
      (match operandInner operand with
        | .Wildcard mc fs _ _ =>
            if !fs || optype.associative then
              let count := mc + partVec.headD 0
              let oe := exprs.take count
              let wrapA := if fs then mc else 0
              let oe' :=
                if wrapA ≠ 0 ∧ wrapA < oe.length then
                  oe.take (wrapA - 1) ++ [OpType.from_args optype (oe.drop (wrapA - 1))]
                else oe
              oe' :: build_full_partition optype partVec.tail (exprs.drop count) ops
            else
              exprs.take mc :: build_full_partition optype partVec (exprs.drop mc) ops
        | _ => exprs.take 1 :: build_full_partition optype partVec (exprs.drop 1) ops) := by
  conv_lhs => unfold build_full_partition

theorem build_full_partition_assoc_wrap (optype : OpType) (k : Nat) (pv : List Nat)
    (exprs : List Expr) (operand : Expr) (ops : List Expr) (m : Nat) (st : Option Nat)
    (c : Option Constraint) (hassoc : optype.associative = true)
    (hop : operandInner operand = Expr.Wildcard m true st c) :
    (1 ≤ m → m < (exprs.take (m + k)).length →
        build_full_partition optype (k :: pv) exprs (operand :: ops) =
          ((exprs.take (m + k)).take (m - 1)
              ++ [OpType.from_args optype ((exprs.take (m + k)).drop (m - 1))])
            :: build_full_partition optype pv (exprs.drop (m + k)) ops)
    ∧ (m = 0 →
        build_full_partition optype (k :: pv) exprs (operand :: ops) =
          exprs.take k :: build_full_partition optype pv (exprs.drop k) ops) := by
  rw [build_full_partition_cons optype (k :: pv) exprs operand ops, hop]
  simp only [hassoc, Bool.not_true, Bool.false_or, if_true, List.headD_cons, List.tail_cons]
  constructor
  · intro h1 h2
    rw [if_pos ⟨Nat.one_le_iff_ne_zero.mp h1, h2⟩]
  · intro h0
    subst h0
    rw [if_neg (by simp)]
    simp

/-- Claim C10: frame property — the matcher never changes the bindings of
the incoming substitution: `match_wildcard` yields only the incoming
substitution itself; `match_variable` on an already-bound name yields only
the incoming substitution; and the already-bound branch of the fixed
variable factory yields only states carrying the incoming substitution
(extensions elsewhere are made on fresh copies via `Substitution.set`,
which the embedding makes explicit by being pure). -/
theorem matcher_frame_property (cenv : Nat → Substitution → Bool) (es : List Expr)
    (mc : Nat) (fs : Bool) (st : Option Nat) (c : Option Constraint)
    (name : String) (inner : Expr) (vc : Option Constraint) (matcher : Matcher)
    (var : Option String) (count length : Nat) (fc : Option Constraint)
    (E : Mset Expr) (subst : Substitution) :
    (∀ σ ∈ match_wildcard cenv es mc fs st c subst, σ = subst)
    ∧ (Substitution.contains subst (some name) = true →
        ∀ r, match_variable cenv es name inner vc subst matcher = .ok r →
          ∀ σ ∈ r, σ = subst)
    ∧ (Substitution.contains subst var = true →
        ∀ q ∈ fixed_var_iter_factory cenv var count length fc (E, subst), q.2 = subst) := by
  refine ⟨?_, ?_, ?_⟩
  · unfold match_wildcard
    repeat' split
    all_goals simp
  · intro hmem r hr σ hσ
    unfold match_variable at hr
    rw [if_pos hmem] at hr
    repeat' split at hr
    all_goals
      injection hr with hr
    all_goals
      subst hr
    all_goals
      first
        | (obtain rfl := List.mem_singleton.mp hσ; rfl)
        | simp at hσ
  · intro hmem q hq
    obtain ⟨v, hv⟩ := Option.isSome_iff_exists.mp hmem
    simp only [fixed_var_iter_factory, hv] at hq
    split at hq
    · split at hq
      · simp at hq
        rw [hq]
      · simp at hq
    · simp at hq

/-- Claim C10 witness: with `x` already bound, `match_variable` and the
fixed-variable factory yield only the incoming substitution. -/
theorem matcher_frame_property_witness :
    (∀ r, match_variable (fun _ _ => true) [Expr.Symbol 0 "a" none] "x"
        (Expr.Wildcard 1 true none none) none
        [(some "x", .single (Expr.Symbol 0 "a" none))] (fun _ _ _ => Except.ok []) = .ok r →
        ∀ σ ∈ r, σ = [(some "x", .single (Expr.Symbol 0 "a" none))])
    ∧ (∀ q ∈ fixed_var_iter_factory (fun _ _ => true) (some "x") 1 1 none
        ([(Expr.Symbol 0 "a" none, 1)], [(some "x", .single (Expr.Symbol 0 "a" none))]),
        q.2 = [(some "x", .single (Expr.Symbol 0 "a" none))]) :=
  ⟨(matcher_frame_property (fun _ _ => true) [Expr.Symbol 0 "a" none] 1 true none none
      "x" (Expr.Wildcard 1 true none none) none (fun _ _ _ => Except.ok [])
      (some "x") 1 1 none [(Expr.Symbol 0 "a" none, 1)]
      [(some "x", .single (Expr.Symbol 0 "a" none))]).2.1 rfl,
   (matcher_frame_property (fun _ _ => true) [Expr.Symbol 0 "a" none] 1 true none none
      "x" (Expr.Wildcard 1 true none none) none (fun _ _ _ => Except.ok [])
      (some "x") 1 1 none [(Expr.Symbol 0 "a" none, 1)]
      [(some "x", .single (Expr.Symbol 0 "a" none))]).2.2 rfl⟩

/-! ### Cardinality lemmas for the classification invariant -/

theorem Mset.card_incr [DecidableEq α] (m : Mset α) (x : α) (k : Nat) :
    Mset.card (Mset.incr m x k) = Mset.card m + k := by
  induction m with
  | nil => simp [Mset.incr, Mset.card]
  | cons p rest ih =>
      obtain ⟨y, cnt⟩ := p
      by_cases h : y = x
      · simp only [Mset.incr, if_pos h, Mset.card]
        omega
      · simp only [Mset.incr, if_neg h, Mset.card, ih]
        omega

theorem isUnnamedWildcard_false_of_constant (e : Expr) (h : e.is_constant = true) :
    e.isUnnamedWildcard = false := by
  cases e <;> simp_all [Expr.isUnnamedWildcard, Expr.is_constant]

theorem isUnnamedWildcard_false_of_head_ne (e : Expr) (h : ¬e.head = Head.none) :
    e.isUnnamedWildcard = false := by
  cases e <;> simp_all [Expr.isUnnamedWildcard, Expr.head]

theorem addExpr_cards (p p' : CommutativePatternsParts) (e : Expr)
    (h : CommutativePatternsParts.addExpr p e = .ok p') :
    CommutativePatternsParts.bucketCards p' + (if e.isUnnamedWildcard then 1 else 0) =
      CommutativePatternsParts.bucketCards p + 1
    ∧ p'.length = p.length := by
  unfold CommutativePatternsParts.addExpr at h
  split at h
  · rename_i hconst
    injection h with h
    subst h
    simp only [CommutativePatternsParts.bucketCards, Mset.card_incr,
      isUnnamedWildcard_false_of_constant e hconst, Bool.false_eq_true, if_false]
    exact ⟨by omega, trivial⟩
  · split at h
    · rename_i hhead
      split at h
      · rename_i name inner vconstraint
        split at h
        · rename_i mc fs symt wcc
          split at h
          · split at h
            · exact absurd h (by simp)
            · injection h with h
              subst h
              simp only [CommutativePatternsParts.bucketCards, Mset.card_incr,
                Expr.isUnnamedWildcard, Bool.false_eq_true, if_false]
              exact ⟨by omega, trivial⟩
          · split at h
            · exact absurd h (by simp)
            · injection h with h
              subst h
              simp only [CommutativePatternsParts.bucketCards, Mset.card_incr,
                Expr.isUnnamedWildcard, Bool.false_eq_true, if_false]
              exact ⟨by omega, trivial⟩
        · exact absurd h (by simp)
      · injection h with h
        subst h
        simp [CommutativePatternsParts.bucketCards, Expr.isUnnamedWildcard]
      · exact absurd h (by simp)
    · split at h
      · rename_i hhead hsyn
        injection h with h
        subst h
        simp only [CommutativePatternsParts.bucketCards, Mset.card_incr,
          isUnnamedWildcard_false_of_head_ne e hhead, Bool.false_eq_true, if_false]
        exact ⟨by omega, trivial⟩
      · rename_i hhead hsyn
        injection h with h
        subst h
        simp only [CommutativePatternsParts.bucketCards, Mset.card_incr,
          isUnnamedWildcard_false_of_head_ne e hhead, Bool.false_eq_true, if_false]
        exact ⟨by omega, trivial⟩

theorem initGo_cards (es : List Expr) :
    ∀ p p' : CommutativePatternsParts,
      CommutativePatternsParts.initGo p es = .ok p' →
      CommutativePatternsParts.bucketCards p' + countUnnamedWildcards es =
        CommutativePatternsParts.bucketCards p + es.length
      ∧ p'.length = p.length := by
  induction es with
  | nil =>
      intro p p' h
      unfold CommutativePatternsParts.initGo at h
      injection h with h
      subst h
      simp [countUnnamedWildcards]
  | cons e es ih =>
      intro p p' h
      unfold CommutativePatternsParts.initGo at h
      split at h
      · exact absurd h (by simp)
      · rename_i pmid hadd
        obtain ⟨h1, h2⟩ := addExpr_cards p pmid e hadd
        obtain ⟨h3, h4⟩ := ih pmid p' h
        constructor
        · simp only [countUnnamedWildcards, List.countP_cons, List.length_cons] at h3 ⊢
          by_cases hu : Expr.isUnnamedWildcard e = true
          · simp [hu] at h1 ⊢
            omega
          · simp only [Bool.not_eq_true] at hu
            simp [hu] at h1 ⊢
            omega
        · rw [h4, h2]

/-- Claim C6: classification invariant — for every operand list on which the
construction of `CommutativePatternsParts` succeeds, each operand lands in
exactly one bucket: the sum of the multiset cardinalities of `constant`,
`syntactic`, `rest`, `sequence_variables` and `fixed_variables` plus the
number of unnamed-wildcard operands equals the stored `length`, which is
the total operand count. -/
theorem commutative_parts_classification (optype : OpType) (es : List Expr)
    (p : CommutativePatternsParts)
    (h : CommutativePatternsParts.mkParts optype es = .ok p) :
    CommutativePatternsParts.bucketCards p + countUnnamedWildcards es = p.length
    ∧ p.length = es.length := by
  obtain ⟨h1, h2⟩ := initGo_cards es _ p h
  have hemp :
      CommutativePatternsParts.bucketCards
        (CommutativePatternsParts.empty optype es.length) = 0 := rfl
  have hlen : (CommutativePatternsParts.empty optype es.length).length = es.length := rfl
  rw [hemp] at h1
  rw [hlen] at h2
  exact ⟨by omega, h2⟩

/-- Claim C6 witness: a pattern with one constant, one fixed variable, one
unnamed sequence wildcard, one syntactic operand and one rest operand. -/
theorem commutative_parts_classification_witness :
    CommutativePatternsParts.bucketCards
        { operation := ⟨0, false, true⟩, length := 5,
          constant := [(Expr.Symbol 0 "a" none, 1)],
          syntactic := [(Expr.Operation ⟨3, false, false⟩
            [Expr.Variable "y" (Expr.Wildcard 1 true none none) none] none, 1)],
          sequence_variables := [], sequence_variable_infos := [],
          fixed_variables := [(some "x", 1)],
          fixed_variable_infos := [(some "x", ⟨1, none⟩)],
          rest := [(Expr.Operation ⟨0, false, true⟩
            [Expr.Variable "z" (Expr.Wildcard 1 true none none) none] none, 1)],
          sequence_variable_min_length := 0, fixed_variable_length := 1,
          wildcard_min_length := 2, wildcard_fixed := some false }
      + countUnnamedWildcards
          [Expr.Symbol 0 "a" none,
           Expr.Variable "x" (Expr.Wildcard 1 true none none) none,
           Expr.Wildcard 2 false none none,
           Expr.Operation ⟨3, false, false⟩
             [Expr.Variable "y" (Expr.Wildcard 1 true none none) none] none,
           Expr.Operation ⟨0, false, true⟩
             [Expr.Variable "z" (Expr.Wildcard 1 true none none) none] none]
      = 5
    ∧ (5 : Nat) =
        [Expr.Symbol 0 "a" none,
         Expr.Variable "x" (Expr.Wildcard 1 true none none) none,
         Expr.Wildcard 2 false none none,
         Expr.Operation ⟨3, false, false⟩
           [Expr.Variable "y" (Expr.Wildcard 1 true none none) none] none,
         Expr.Operation ⟨0, false, true⟩
           [Expr.Variable "z" (Expr.Wildcard 1 true none none) none] none].length :=
  commutative_parts_classification ⟨0, false, true⟩
    [Expr.Symbol 0 "a" none,
     Expr.Variable "x" (Expr.Wildcard 1 true none none) none,
     Expr.Wildcard 2 false none none,
     Expr.Operation ⟨3, false, false⟩
       [Expr.Variable "y" (Expr.Wildcard 1 true none none) none] none,
     Expr.Operation ⟨0, false, true⟩
       [Expr.Variable "z" (Expr.Wildcard 1 true none none) none] none]
    _ rfl

/-! ### Totality lemmas: the commutative matcher only raises its
precondition error -/

theorem flatMapE_ok (xs : List α) (f : α → Except String (List β))
    (hf : ∀ x ∈ xs, ∃ l, f x = .ok l) : ∃ l, flatMapE xs f = .ok l := by
  induction xs with
  | nil => exact ⟨[], rfl⟩
  | cons x xs ih =>
      obtain ⟨lx, hx⟩ := hf x (List.mem_cons_self x xs)
      obtain ⟨lr, hr⟩ := ih fun y hy => hf y (List.mem_cons_of_mem x hy)
      refine ⟨lx ++ lr, ?_⟩
      unfold flatMapE
      rw [hx, hr]

theorem iterator_chain_ok (fs : List (α → Except String (List α)))
    (hf : ∀ f ∈ fs, ∀ a, ∃ l, f a = .ok l) :
    ∀ init, ∃ l, iterator_chain init fs = .ok l := by
  induction fs with
  | nil => exact fun init => ⟨[init], rfl⟩
  | cons f fs ih =>
      intro init
      obtain ⟨l0, h0⟩ := hf f (List.mem_cons_self f fs) init
      obtain ⟨l, hl⟩ := flatMapE_ok l0 _
        fun s _ => ih (fun g hg => hf g (List.mem_cons_of_mem f hg)) s
      refine ⟨l, ?_⟩
      unfold iterator_chain
      rw [h0]
      exact hl

theorem fixed_expr_factory_ok (cenv : Nat → Substitution → Bool) (e : Expr)
    (matcher : Matcher) (hm : ∀ es p s, ∃ l, matcher es p s = .ok l) :
    ∀ st, ∃ l, fixed_expr_factory cenv e matcher st = .ok l := by
  intro st
  unfold fixed_expr_factory
  apply flatMapE_ok
  intro x _
  by_cases hh : x.head = e.head
  · rw [if_pos hh]
    obtain ⟨l, hl⟩ := hm [x] e st.2
    rw [hl]
    exact ⟨_, rfl⟩
  · rw [if_neg hh]
    exact ⟨[], rfl⟩

theorem mfm_factories_ok (cenv : Nat → Substitution → Bool)
    (pattern : CommutativePatternsParts) (matcher : Matcher) (rest_expr : Mset Expr)
    (fixed_vars : Mset (Option String)) (hm : ∀ es p s, ∃ l, matcher es p s = .ok l) :
    ∀ f ∈ mfm_factories cenv pattern matcher rest_expr fixed_vars,
      ∀ a, ∃ l, f a = .ok l := by
  intro f hf
  unfold mfm_factories at hf
  rcases List.mem_append.mp hf with hf | hf
  · obtain ⟨e, _, rfl⟩ := List.mem_map.mp hf
    exact fun a => fixed_expr_factory_ok cenv e matcher hm a
  · split at hf
    · rcases List.mem_append.mp hf with hf | hf
      · obtain ⟨q, _, rfl⟩ := List.mem_map.mp hf
        exact fun a => ⟨_, rfl⟩
      · split at hf
        · obtain rfl := List.mem_singleton.mp hf
          exact fun a => ⟨_, rfl⟩
        · exact absurd hf (by simp)
    · exact absurd hf (by simp)

theorem matches_from_matching_ok (cenv : Nat → Substitution → Bool)
    (subst : Substitution) (remaining : Mset Expr) (pattern : CommutativePatternsParts)
    (matcher : Matcher) (include_syntactic : Bool)
    (hm : ∀ es p s, ∃ l, matcher es p s = .ok l) :
    ∃ l, matches_from_matching cenv subst remaining pattern matcher include_syntactic
      = .ok l := by
  unfold matches_from_matching
  split
  · exact ⟨[], rfl⟩
  · split
    · exact ⟨[], rfl⟩
    · rename_i rem fvars hpre
      obtain ⟨l, hl⟩ := iterator_chain_ok _
        (mfm_factories_ok cenv pattern matcher _ fvars hm) (rem, subst)
      rw [hl]
      exact ⟨_, rfl⟩

/-- Claim C4: error discipline of the commutative entry point — when any
subject is not constant, `match_commutative_operation` raises the
precondition-violation error; when every subject is constant (and the
recursive matcher it is given does not itself raise), it never raises:
failure to match is expressed solely by the yielded sequence being
empty. -/
theorem match_commutative_operation_error_discipline
    (cenv : Nat → Substitution → Bool) (operands : List Expr)
    (pattern : CommutativePatternsParts) (subst : Substitution) (matcher : Matcher)
    (hm : ∀ es p s, ∃ l, matcher es p s = Except.ok l) :
    ((∃ e ∈ operands, e.is_constant = false) →
        match_commutative_operation cenv operands pattern subst matcher =
          .error "All given expressions must be constant.")
    ∧ ((∀ e ∈ operands, e.is_constant = true) →
        ∃ l, match_commutative_operation cenv operands pattern subst matcher
          = .ok l) := by
  constructor
  · rintro ⟨e, he, hc⟩
    unfold match_commutative_operation
    rw [if_pos (List.any_eq_true.mpr ⟨e, he, by simp [hc]⟩)]
  · intro hall
    unfold match_commutative_operation
    rw [if_neg (by
      simp only [List.any_eq_true, not_exists]
      rintro x ⟨hx, hc⟩
      rw [hall x hx] at hc
      simp at hc)]
    split
    · exact matches_from_matching_ok cenv subst _ pattern matcher true hm
    · exact ⟨[], rfl⟩

/-- Claim C4 witness: with a constant subject and a non-raising matcher the
commutative entry point returns an (possibly empty) enumeration. -/
theorem match_commutative_operation_error_discipline_witness :
    ∃ l, match_commutative_operation (fun _ _ => true) [Expr.Symbol 0 "a" none]
      (CommutativePatternsParts.empty ⟨0, false, true⟩ 0) []
      (fun _ _ _ => Except.ok []) = .ok l :=
  (match_commutative_operation_error_discipline (fun _ _ => true)
      [Expr.Symbol 0 "a" none] (CommutativePatternsParts.empty ⟨0, false, true⟩ 0) []
      (fun _ _ _ => Except.ok []) (fun _ _ _ => ⟨[], rfl⟩)).2
    (by intro e he; simp at he; subst he; rfl)

/-- Claim C8: repeated fixed variable under a commutative operator — the
pattern `f(x_, x_)` (the same fixed-size variable of `min_count = 1`
twice, `f` commutative) matched against the subject `f(a, a)` yields
exactly one substitution, `{x → a}`, and matched against `f(a, b)` with
`a ≠ b` yields no substitution. -/
theorem repeated_fixed_var_commutative (cenv : Nat → Substitution → Bool) (fuel : Nat) :
    match' cenv (fuel + 1)
        [Expr.Operation ⟨0, false, true⟩ [Expr.Symbol 0 "a" none, Expr.Symbol 0 "a" none] none]
        (Expr.Operation ⟨0, false, true⟩
          [Expr.Variable "x" (Expr.Wildcard 1 true none none) none,
           Expr.Variable "x" (Expr.Wildcard 1 true none none) none] none)
        [] = .ok [[(some "x", SubstVal.single (Expr.Symbol 0 "a" none))]]
    ∧ match' cenv (fuel + 1)
        [Expr.Operation ⟨0, false, true⟩ [Expr.Symbol 0 "a" none, Expr.Symbol 0 "b" none] none]
        (Expr.Operation ⟨0, false, true⟩
          [Expr.Variable "x" (Expr.Wildcard 1 true none none) none,
           Expr.Variable "x" (Expr.Wildcard 1 true none none) none] none)
        [] = .ok [] := ⟨rfl, rfl⟩

/-! ### Substitution extension lemmas -/

theorem substExtends_refl (σ : Substitution) : SubstExtends σ σ := fun _ _ h => h

theorem substExtends_trans {a b c : Substitution} (h1 : SubstExtends a b)
    (h2 : SubstExtends b c) : SubstExtends a c :=
  fun k v h => h1 k v (h2 k v h)

theorem find?_set_ne (s : Substitution) (k k' : Option String) (v : SubstVal)
    (h : k' ≠ k) :
    Substitution.find? (Substitution.set s k v) k' = Substitution.find? s k' := by
  induction s with
  | nil =>
      simp only [Substitution.set, Substitution.find?]
      rw [if_neg (fun hh => h hh.symm)]
  | cons p rest ih =>
      obtain ⟨a, b⟩ := p
      by_cases ha : a = k
      · subst ha
        simp only [Substitution.set, if_pos rfl, Substitution.find?]
        rw [if_neg (fun hh => h hh.symm), if_neg (fun hh => h hh.symm)]
      · simp only [Substitution.set, if_neg ha, Substitution.find?]
        by_cases ha' : a = k'
        · rw [if_pos ha', if_pos ha']
        · rw [if_neg ha', if_neg ha', ih]

theorem substExtends_set (σ τ : Substitution) (k : Option String) (v : SubstVal)
    (hσ : SubstExtends σ τ) (hk : Substitution.find? τ k = none) :
    SubstExtends (Substitution.set σ k v) τ := by
  intro k' v' h
  have hne : k' ≠ k := fun he => by rw [he, hk] at h; exact Option.noConfusion h
  rw [find?_set_ne σ k k' v hne]
  exact hσ k' v' h

theorem find?_append_left (s t : Substitution) (k : Option String) (v : SubstVal)
    (h : Substitution.find? s k = some v) :
    Substitution.find? (s ++ t) k = some v := by
  induction s with
  | nil => simp [Substitution.find?] at h
  | cons p rest ih =>
      obtain ⟨a, b⟩ := p
      simp only [Substitution.find?, List.cons_append] at h ⊢
      by_cases ha : a = k
      · rwa [if_pos ha] at h ⊢
      · rw [if_neg ha] at h ⊢
        exact ih h

theorem find?_append_of_none (s t : Substitution) (k : Option String)
    (h : Substitution.find? s k = none) :
    Substitution.find? (s ++ t) k = Substitution.find? t k := by
  induction s with
  | nil => rfl
  | cons p rest ih =>
      obtain ⟨a, b⟩ := p
      simp only [Substitution.find?, List.cons_append] at h ⊢
      by_cases ha : a = k
      · rw [if_pos ha] at h
        exact Option.noConfusion h
      · rw [if_neg ha] at h ⊢
        exact ih h

theorem union_preserves_left : ∀ (o s r : Substitution),
    Substitution.union s o = .ok r →
    ∀ k v, Substitution.find? s k = some v → Substitution.find? r k = some v := by
  intro o
  induction o with
  | nil =>
      intro s r h k v hf
      injection h with h
      subst h
      exact hf
  | cons p rest ih =>
      intro s r h k v hf
      obtain ⟨k0, v0⟩ := p
      unfold Substitution.union at h
      split at h
      · split at h
        · exact ih s r h k v hf
        · exact absurd h (by simp)
      · exact ih _ r h k v (find?_append_left s [(k0, v0)] k v hf)

theorem union_extends_right : ∀ (o s r : Substitution),
    Substitution.union s o = .ok r → SubstExtends r o := by
  intro o
  induction o with
  | nil =>
      intro s r h k v hf
      exact absurd hf (by simp [Substitution.find?])
  | cons p rest ih =>
      intro s r h k v hf
      obtain ⟨k0, v0⟩ := p
      unfold Substitution.find? at hf
      unfold Substitution.union at h
      by_cases hk : k0 = k
      · rw [if_pos hk] at hf
        injection hf with hf
        split at h
        · rename_i v' hfind
          split at h
          · rename_i hv
            refine union_preserves_left rest s r h k v ?_
            rw [← hk, ← hf, ← hv]
            exact hfind
          · exact absurd h (by simp)
        · rename_i hfind
          refine union_preserves_left rest _ r h k v ?_
          rw [← hk, ← hf]
          rw [find?_append_of_none s [(k0, v0)] k0 hfind]
          simp [Substitution.find?]
      · rw [if_neg hk] at hf
        split at h
        · split at h
          · exact ih s r h k v hf
          · exact absurd h (by simp)
        · exact ih _ r h k v hf

/-! ### Membership lemmas for the enumeration plumbing -/

theorem flatMapE_mem (xs : List α) (f : α → Except String (List β)) :
    ∀ l, flatMapE xs f = .ok l →
      ∀ y ∈ l, ∃ x ∈ xs, ∃ lx, f x = .ok lx ∧ y ∈ lx := by
  induction xs with
  | nil =>
      intro l h y hy
      injection h with h
      subst h
      simp at hy
  | cons x xs ih =>
      intro l h y hy
      unfold flatMapE at h
      split at h
      · exact absurd h (by simp)
      · rename_i lx hx
        split at h
        · exact absurd h (by simp)
        · rename_i lr hr
          injection h with h
          subst h
          rcases List.mem_append.mp hy with hy | hy
          · exact ⟨x, List.mem_cons_self x xs, lx, hx, hy⟩
          · obtain ⟨x', hx', lx', h1, h2⟩ := ih lr hr y hy
            exact ⟨x', List.mem_cons_of_mem x hx', lx', h1, h2⟩

theorem iterator_chain_rel (R : α → α → Prop) (hrefl : ∀ a, R a a)
    (htrans : ∀ a b c, R a b → R b c → R a c) :
    ∀ (fs : List (α → Except String (List α))),
      (∀ f ∈ fs, ∀ a l, f a = .ok l → ∀ b ∈ l, R a b) →
      ∀ init l, iterator_chain init fs = .ok l → ∀ b ∈ l, R init b := by
  intro fs
  induction fs with
  | nil =>
      intro _ init l h b hb
      injection h with h
      subst h
      obtain rfl := List.mem_singleton.mp hb
      exact hrefl b
  | cons f fs ih =>
      intro hfs init l h b hb
      unfold iterator_chain at h
      split at h
      · exact absurd h (by simp)
      · rename_i states hst
        obtain ⟨s, hs, ls, h1, h2⟩ := flatMapE_mem states _ l h b hb
        have h3 := ih (fun g hg => hfs g (List.mem_cons_of_mem f hg)) s ls h1 b h2
        exact htrans init s b (hfs f (List.mem_cons_self f fs) init states hst s hs) h3

/-! ### The yields of every matching function extend the incoming
substitution -/

theorem match_wildcard_mem (cenv : Nat → Substitution → Bool) (es : List Expr)
    (mc : Nat) (fs : Bool) (st : Option Nat) (c : Option Constraint)
    (subst : Substitution) :
    ∀ σ ∈ match_wildcard cenv es mc fs st c subst,
      σ = subst ∧ checkConstraint cenv c subst = true := by
  unfold match_wildcard
  repeat' split
  all_goals simp_all

theorem match_variable_extends (cenv : Nat → Substitution → Bool) (es : List Expr)
    (name : String) (inner : Expr) (vc : Option Constraint) (subst : Substitution)
    (matcher : Matcher) (r : List Substitution) (hm : MatcherExtends matcher)
    (h : match_variable cenv es name inner vc subst matcher = .ok r) :
    ∀ σ ∈ r, SubstExtends σ subst := by
  unfold match_variable at h
  by_cases hb : Substitution.contains subst (some name) = true
  · rw [if_pos hb] at h
    split at h
    · split at h
      · injection h with h
        subst h
        intro σ hσ
        obtain rfl := List.mem_singleton.mp hσ
        exact substExtends_refl _
      · injection h with h
        subst h
        intro σ hσ
        simp at hσ
    · injection h with h
      subst h
      intro σ hσ
      simp at hσ
  · rw [if_neg hb] at h
    have hnone : Substitution.find? subst (some name) = none := by
      unfold Substitution.contains at hb
      cases hfind : Substitution.find? subst (some name) with
      | none => rfl
      | some v => rw [hfind] at hb; simp at hb
    split at h
    · exact absurd h (by simp)
    · rename_i results hres
      injection h with h
      subst h
      intro σ hσ
      obtain ⟨ns, hns, hσ'⟩ := List.mem_filterMap.mp hσ
      split at hσ'
      · injection hσ' with hσ'
        subst hσ'
        exact substExtends_set ns subst (some name) _
          (hm es inner subst results hres ns hns) hnone
      · exact absurd hσ' (by simp)

theorem fixed_var_iter_factory_extends (cenv : Nat → Substitution → Bool)
    (var : Option String) (count length : Nat) (fc : Option Constraint)
    (E : Mset Expr) (subst : Substitution) :
    ∀ q ∈ fixed_var_iter_factory cenv var count length fc (E, subst),
      SubstExtends q.2 subst := by
  intro q hq
  cases hfind : Substitution.find? subst var with
  | some v =>
      simp only [fixed_var_iter_factory, hfind] at hq
      split at hq
      · split at hq
        · obtain rfl := List.mem_singleton.mp hq
          exact substExtends_refl subst
        · simp at hq
      · simp at hq
  | none =>
      simp only [fixed_var_iter_factory, hfind] at hq
      split at hq
      · obtain ⟨p, hp, hq2⟩ := List.mem_flatMap.mp hq
        split at hq2
        · split at hq2
          · rename_i val
            split at hq2
            · obtain rfl := List.mem_singleton.mp hq2
              exact substExtends_set subst subst (some val) _ (substExtends_refl subst) hfind
            · simp at hq2
          · obtain rfl := List.mem_singleton.mp hq2
            exact substExtends_refl subst
        · simp at hq2
      · obtain ⟨subset, hsub, hq2⟩ := List.mem_flatMap.mp hq
        split at hq2
        · rename_i val
          split at hq2
          · obtain rfl := List.mem_singleton.mp hq2
            exact substExtends_set subst subst (some val) _ (substExtends_refl subst) hfind
          · simp at hq2
        · obtain rfl := List.mem_singleton.mp hq2
          exact substExtends_refl subst

theorem fixed_expr_factory_extends (cenv : Nat → Substitution → Bool) (e : Expr)
    (matcher : Matcher) (hm : MatcherExtends matcher)
    (st : Mset Expr × Substitution) (l : List (Mset Expr × Substitution))
    (h : fixed_expr_factory cenv e matcher st = .ok l) :
    ∀ q ∈ l, SubstExtends q.2 st.2 := by
  unfold fixed_expr_factory at h
  intro q hq
  obtain ⟨x, hx, lx, hfx, hqlx⟩ := flatMapE_mem _ _ l h q hq
  split at hfx
  · split at hfx
    · exact absurd hfx (by simp)
    · rename_i substs hsubsts
      injection hfx with hfx
      subst hfx
      obtain ⟨subst', hs', hq'⟩ := List.mem_filterMap.mp hqlx
      split at hq'
      · injection hq' with hq'
        subst hq'
        exact hm [x] e st.2 substs hsubsts subst' hs'
      · exact absurd hq' (by simp)
  · injection hfx with hfx
    subst hfx
    simp at hqlx

theorem mfm_factories_extends (cenv : Nat → Substitution → Bool)
    (pattern : CommutativePatternsParts) (matcher : Matcher) (rest_expr : Mset Expr)
    (fixed_vars : Mset (Option String)) (hm : MatcherExtends matcher) :
    ∀ f ∈ mfm_factories cenv pattern matcher rest_expr fixed_vars,
      ∀ a l, f a = .ok l → ∀ b ∈ l, SubstExtends b.2 a.2 := by
  intro f hf
  unfold mfm_factories at hf
  rcases List.mem_append.mp hf with hf | hf
  · obtain ⟨e, _, rfl⟩ := List.mem_map.mp hf
    exact fun a l h b hb => fixed_expr_factory_extends cenv e matcher hm a l h b hb
  · split at hf
    · rcases List.mem_append.mp hf with hf | hf
      · obtain ⟨q, _, rfl⟩ := List.mem_map.mp hf
        intro a l h b hb
        injection h with h
        subst h
        obtain ⟨E, s⟩ := a
        exact fixed_var_iter_factory_extends cenv q.1 q.2 _ _ E s b hb
      · split at hf
        · obtain rfl := List.mem_singleton.mp hf
          intro a l h b hb
          injection h with h
          subst h
          obtain ⟨E, s⟩ := a
          exact fixed_var_iter_factory_extends cenv none 1 _ none E s b hb
        · exact absurd hf (by simp)
    · exact absurd hf (by simp)

theorem mfm_union_step_extends (cenv : Nat → Substitution → Bool)
    (combined : Option Constraint) (s subst σ : Substitution)
    (h : mfm_union_step cenv combined s subst = some σ) : SubstExtends σ subst := by
  unfold mfm_union_step at h
  split at h
  · exact absurd h (by simp)
  · rename_i result hres
    split at h
    · injection h with h
      subst h
      exact union_extends_right subst s _ hres
    · exact absurd h (by simp)

theorem mfm_allocate_extends (cenv : Nat → Substitution → Bool)
    (pattern : CommutativePatternsParts) (fixed_vars : Mset (Option String))
    (state : Mset Expr × Substitution) :
    ∀ σ ∈ mfm_allocate cenv pattern fixed_vars state, SubstExtends σ state.2 := by
  intro σ hσ
  simp only [mfm_allocate] at hσ
  obtain ⟨seqsubst, hseq, hσ'⟩ := List.mem_filterMap.mp hσ
  exact mfm_union_step_extends cenv _ _ state.2 σ hσ'

theorem matches_from_matching_extends (cenv : Nat → Substitution → Bool)
    (subst : Substitution) (remaining : Mset Expr)
    (pattern : CommutativePatternsParts) (matcher : Matcher) (incl : Bool)
    (r : List Substitution) (hm : MatcherExtends matcher)
    (h : matches_from_matching cenv subst remaining pattern matcher incl = .ok r) :
    ∀ σ ∈ r, SubstExtends σ subst := by
  unfold matches_from_matching at h
  split at h
  · injection h with h
    subst h
    simp
  · split at h
    · injection h with h
      subst h
      simp
    · rename_i rem fvars hpre
      split at h
      · exact absurd h (by simp)
      · rename_i chained hchain
        injection h with h
        subst h
        intro σ hσ
        obtain ⟨state, hstate, hσ2⟩ := List.mem_flatMap.mp hσ
        have h1 : SubstExtends state.2 subst :=
          iterator_chain_rel (fun a b => SubstExtends b.2 a.2)
            (fun a => substExtends_refl a.2)
            (fun a b c hab hbc => by exact substExtends_trans hbc hab)
            _ (mfm_factories_extends cenv pattern matcher _ fvars hm)
            (rem, subst) chained hchain state hstate
        exact substExtends_trans (mfm_allocate_extends cenv pattern fvars state σ hσ2) h1

theorem match_commutative_operation_extends (cenv : Nat → Substitution → Bool)
    (operands : List Expr) (pattern : CommutativePatternsParts)
    (subst : Substitution) (matcher : Matcher) (r : List Substitution)
    (hm : MatcherExtends matcher)
    (h : match_commutative_operation cenv operands pattern subst matcher = .ok r) :
    ∀ σ ∈ r, SubstExtends σ subst := by
  unfold match_commutative_operation at h
  split at h
  · exact absurd h (by simp)
  · split at h
    · exact matches_from_matching_extends cenv subst _ pattern matcher true r hm h
    · injection h with h
      subst h
      simp

theorem non_commutative_match_extends (expressions : List Expr) (optype : OpType)
    (operands : List Expr) (subst : Substitution) (matcher : Matcher)
    (r : List Substitution) (hm : MatcherExtends matcher)
    (h : non_commutative_match expressions optype operands subst matcher = .ok r) :
    ∀ σ ∈ r, SubstExtends σ subst := by
  unfold non_commutative_match at h
  split at h
  · injection h with h
    subst h
    simp
  · intro σ hσ
    obtain ⟨part, hpart, lp, hlp, hσp⟩ := flatMapE_mem _ _ r h σ hσ
    refine iterator_chain_rel (fun a b => SubstExtends b a) substExtends_refl
      (fun a b c hab hbc => by exact substExtends_trans hbc hab) _ ?_ subst lp hlp σ hσp
    intro f hf a l hl b hb
    obtain ⟨p, _, rfl⟩ := List.mem_map.mp hf
    exact hm p.1 p.2 a l hl b hb

theorem match_operation_extends (cenv : Nat → Substitution → Bool)
    (expressions : List Expr) (optype : OpType) (operands : List Expr)
    (subst : Substitution) (matcher : Matcher) (r : List Substitution)
    (hm : MatcherExtends matcher)
    (h : match_operation cenv expressions optype operands subst matcher = .ok r) :
    ∀ σ ∈ r, SubstExtends σ subst := by
  unfold match_operation at h
  split at h
  · injection h with h
    subst h
    intro σ hσ
    split at hσ
    · obtain rfl := List.mem_singleton.mp hσ
      exact substExtends_refl _
    · simp at hσ
  · split at h
    · exact non_commutative_match_extends expressions optype operands subst matcher r hm h
    · split at h
      · exact absurd h (by simp)
      · exact match_commutative_operation_extends cenv expressions _ subst matcher r hm h

theorem match'_extends (cenv : Nat → Substitution → Bool) :
    ∀ fuel, MatcherExtends (match' cenv fuel) := by
  intro fuel
  induction fuel with
  | zero =>
      intro es p s r h σ hσ
      exact absurd h (by simp [match'])
  | succ fuel ih =>
      intro es pat s r h σ hσ
      cases pat with
      | Variable name inner c =>
          exact match_variable_extends cenv es name inner c s (match' cenv fuel) r ih h σ hσ
      | Wildcard mc fs st c =>
          have h' : (Except.ok (match_wildcard cenv es mc fs st c s) :
              Except String (List Substitution)) = .ok r := h
          injection h' with h'
          subst h'
          obtain ⟨rfl, -⟩ := match_wildcard_mem cenv es mc fs st c s σ hσ
          exact substExtends_refl _
      | Symbol t n c =>
          rw [match'_symbol_eq] at h
          rcases es with _ | ⟨e, rest⟩
          · replace h : (Except.ok [] : Except String (List Substitution)) = .ok r := h
            injection h with h
            subst h
            simp at hσ
          · rcases rest with _ | ⟨e2, rest⟩
            · cases e with
              | Symbol t' n' c' =>
                  replace h : (if t' = t ∧ n' = n then
                      if checkConstraint cenv c s then
                        (Except.ok [s] : Except String (List Substitution))
                      else .ok []
                    else .ok []) = .ok r := h
                  split at h
                  · split at h
                    · injection h with h
                      subst h
                      obtain rfl := List.mem_singleton.mp hσ
                      exact substExtends_refl _
                    · injection h with h
                      subst h
                      simp at hσ
                  · injection h with h
                    subst h
                    simp at hσ
              | Wildcard mc' fs' st' c' =>
                  replace h : (Except.ok [] : Except String (List Substitution)) = .ok r := h
                  injection h with h
                  subst h
                  simp at hσ
              | Variable n' e' c' =>
                  replace h : (Except.ok [] : Except String (List Substitution)) = .ok r := h
                  injection h with h
                  subst h
                  simp at hσ
              | Operation t' ops' c' =>
                  replace h : (Except.ok [] : Except String (List Substitution)) = .ok r := h
                  injection h with h
                  subst h
                  simp at hσ
            · cases e
              all_goals
                replace h : (Except.ok [] : Except String (List Substitution)) = .ok r := h
              all_goals
                injection h with h
              all_goals
                subst h
              all_goals
                simp at hσ
      | Operation t ops c =>
          rw [match'_operation_eq] at h
          rcases es with _ | ⟨e, rest⟩
          · replace h : (Except.ok [] : Except String (List Substitution)) = .ok r := h
            injection h with h
            subst h
            simp at hσ
          · rcases rest with _ | ⟨e2, rest⟩
            · cases e with
              | Operation t' subjOps c' =>
                  replace h : ((if t' = t then
                      match match_operation cenv subjOps t ops s (match' cenv fuel) with
                      | .error e => .error e
                      | .ok results =>
                          Except.ok (results.filter fun result => checkConstraint cenv c result)
                    else .ok []) : Except String (List Substitution)) = .ok r := h
                  split at h
                  · split at h
                    · exact absurd h (by simp)
                    · rename_i results hres
                      injection h with h
                      subst h
                      exact match_operation_extends cenv subjOps t ops s (match' cenv fuel)
                        results ih hres σ (List.mem_filter.mp hσ).1
                  · injection h with h
                    subst h
                    simp at hσ
              | Symbol t' n' c' =>
                  replace h : (Except.ok [] : Except String (List Substitution)) = .ok r := h
                  injection h with h
                  subst h
                  simp at hσ
              | Wildcard mc' fs' st' c' =>
                  replace h : (Except.ok [] : Except String (List Substitution)) = .ok r := h
                  injection h with h
                  subst h
                  simp at hσ
              | Variable n' e' c' =>
                  replace h : (Except.ok [] : Except String (List Substitution)) = .ok r := h
                  injection h with h
                  subst h
                  simp at hσ
            · cases e
              all_goals
                replace h : (Except.ok [] : Except String (List Substitution)) = .ok r := h
              all_goals
                injection h with h
              all_goals
                subst h
              all_goals
                simp at hσ

theorem match_variable_root_constraint (cenv : Nat → Substitution → Bool)
    (es : List Expr) (name : String) (inner : Expr) (vc : Option Constraint)
    (subst : Substitution) (matcher : Matcher) (r : List Substitution)
    (h : match_variable cenv es name inner vc subst matcher = .ok r) :
    ∀ σ ∈ r, checkConstraint cenv vc σ = true := by
  unfold match_variable at h
  split at h
  · split at h
    · split at h
      · rename_i hcheck
        injection h with h
        subst h
        intro σ hσ
        obtain rfl := List.mem_singleton.mp hσ
        exact hcheck
      · injection h with h
        subst h
        intro σ hσ
        simp at hσ
    · injection h with h
      subst h
      intro σ hσ
      simp at hσ
  · split at h
    · exact absurd h (by simp)
    · rename_i results hres
      injection h with h
      subst h
      intro σ hσ
      obtain ⟨ns, hns, hσ'⟩ := List.mem_filterMap.mp hσ
      split at hσ'
      · rename_i hcheck
        injection hσ' with hσ'
        subst hσ'
        exact hcheck
      · exact absurd hσ' (by simp)

theorem match'_root_constraint (cenv : Nat → Substitution → Bool) (fuel : Nat)
    (es : List Expr) (pat : Expr) (subst : Substitution) (r : List Substitution)
    (σ : Substitution) (h : match' cenv fuel es pat subst = .ok r) (hσ : σ ∈ r) :
    checkConstraint cenv pat.constraint σ = true := by
  match fuel with
  | 0 => exact absurd h (by simp [match'])
  | fuel + 1 =>
      cases pat with
      | Variable name inner c =>
          exact match_variable_root_constraint cenv es name inner c subst
            (match' cenv fuel) r h σ hσ
      | Wildcard mc fs st c =>
          have h' : (Except.ok (match_wildcard cenv es mc fs st c subst) :
              Except String (List Substitution)) = .ok r := h
          injection h' with h'
          subst h'
          obtain ⟨rfl, hc⟩ := match_wildcard_mem cenv es mc fs st c subst σ hσ
          exact hc
      | Symbol t n c =>
          rw [match'_symbol_eq] at h
          rcases es with _ | ⟨e, rest⟩
          · replace h : (Except.ok [] : Except String (List Substitution)) = .ok r := h
            injection h with h
            subst h
            simp at hσ
          · rcases rest with _ | ⟨e2, rest⟩
            · cases e with
              | Symbol t' n' c' =>
                  replace h : (if t' = t ∧ n' = n then
                      if checkConstraint cenv c subst then
                        (Except.ok [subst] : Except String (List Substitution))
                      else .ok []
                    else .ok []) = .ok r := h
                  split at h
                  · split at h
                    · rename_i hcheck
                      injection h with h
                      subst h
                      obtain rfl := List.mem_singleton.mp hσ
                      exact hcheck
                    · injection h with h
                      subst h
                      simp at hσ
                  · injection h with h
                    subst h
                    simp at hσ
              | Wildcard mc' fs' st' c' =>
                  replace h : (Except.ok [] : Except String (List Substitution)) = .ok r := h
                  injection h with h
                  subst h
                  simp at hσ
              | Variable n' e' c' =>
                  replace h : (Except.ok [] : Except String (List Substitution)) = .ok r := h
                  injection h with h
                  subst h
                  simp at hσ
              | Operation t' ops' c' =>
                  replace h : (Except.ok [] : Except String (List Substitution)) = .ok r := h
                  injection h with h
                  subst h
                  simp at hσ
            · cases e
              all_goals
                replace h : (Except.ok [] : Except String (List Substitution)) = .ok r := h
              all_goals
                injection h with h
              all_goals
                subst h
              all_goals
                simp at hσ
      | Operation t ops c =>
          rw [match'_operation_eq] at h
          rcases es with _ | ⟨e, rest⟩
          · replace h : (Except.ok [] : Except String (List Substitution)) = .ok r := h
            injection h with h
            subst h
            simp at hσ
          · rcases rest with _ | ⟨e2, rest⟩
            · cases e with
              | Operation t' subjOps c' =>
                  replace h : ((if t' = t then
                      match match_operation cenv subjOps t ops subst (match' cenv fuel) with
                      | .error e => .error e
                      | .ok results =>
                          Except.ok (results.filter fun result => checkConstraint cenv c result)
                    else .ok []) : Except String (List Substitution)) = .ok r := h
                  split at h
                  · split at h
                    · exact absurd h (by simp)
                    · injection h with h
                      subst h
                      exact (List.mem_filter.mp hσ).2
                  · injection h with h
                    subst h
                    simp at hσ
              | Symbol t' n' c' =>
                  replace h : (Except.ok [] : Except String (List Substitution)) = .ok r := h
                  injection h with h
                  subst h
                  simp at hσ
              | Wildcard mc' fs' st' c' =>
                  replace h : (Except.ok [] : Except String (List Substitution)) = .ok r := h
                  injection h with h
                  subst h
                  simp at hσ
              | Variable n' e' c' =>
                  replace h : (Except.ok [] : Except String (List Substitution)) = .ok r := h
                  injection h with h
                  subst h
                  simp at hσ
            · cases e
              all_goals
                replace h : (Except.ok [] : Except String (List Substitution)) = .ok r := h
              all_goals
                injection h with h
              all_goals
                subst h
              all_goals
                simp at hσ

/-- Claim C1 (amended): every substitution σ yielded by
`match(subjects, pattern, subst₀)` extends `subst₀` (σ ⊇ subst₀ as a
mapping), and the constraint attached at the root of the pattern, if any,
returns true on σ.  (The original claim's further conjuncts are false on
the code: a constraint attached to a proper subpattern is only checked on
the partial substitution current at its check site, and substituting σ
back into a pattern containing unnamed wildcards cannot reproduce the
subjects — see the counterexample.) -/
theorem match_soundness_amended (cenv : Nat → Substitution → Bool) (fuel : Nat)
    (es : List Expr) (pat : Expr) (subst : Substitution) (r : List Substitution)
    (σ : Substitution) (h : match' cenv fuel es pat subst = .ok r) (hσ : σ ∈ r) :
    SubstExtends σ subst ∧ checkConstraint cenv pat.constraint σ = true :=
  ⟨match'_extends cenv fuel es pat subst r h σ hσ,
   match'_root_constraint cenv fuel es pat subst r σ h hσ⟩

/-- Claim C1 counterexample: on the pattern `g(_[c₀], x_)` — an unnamed
fixed wildcard carrying the constraint `c₀` (true iff `x` is unbound)
followed by the fixed variable `x` — and the subject `g(a, b)`, the
matcher yields exactly `{x → b}`.  The attached constraint `c₀` is false
on that yielded substitution, and substituting the substitution back into
the pattern leaves the unnamed wildcard in place, so the result is not
AC-equivalent to the subject: the claim's conjunction is false at this
concrete input. -/
theorem match_soundness_counterexample :
    match' cenvCE 5 [subjectCE] patternCE [] = .ok [sigmaCE]
    ∧ evalConstraint cenvCE (.base 0) sigmaCE = false
    ∧ substApply sigmaCE patternCE =
        [Expr.Operation opCE
          [Expr.Wildcard 1 true none (some (.base 0)), Expr.Symbol 0 "b" none] none]
    ∧ acEquiv
        (Expr.Operation opCE
          [Expr.Wildcard 1 true none (some (.base 0)), Expr.Symbol 0 "b" none] none)
        subjectCE = false :=
  ⟨rfl, rfl, rfl, rfl⟩

/-- Claim C1 witness: on the counterexample input with a non-empty starting
substitution `{y → a}`, the yielded substitution `{y → a, x → b}` extends
it and satisfies the (absent) root constraint. -/
theorem match_soundness_amended_witness :
    SubstExtends
        [(some "y", SubstVal.single (.Symbol 0 "a" none)),
         (some "x", SubstVal.single (.Symbol 0 "b" none))]
        [(some "y", SubstVal.single (.Symbol 0 "a" none))]
    ∧ checkConstraint cenvCE patternCE.constraint
        [(some "y", SubstVal.single (.Symbol 0 "a" none)),
         (some "x", SubstVal.single (.Symbol 0 "b" none))] = true :=
  match_soundness_amended cenvCE 5 [subjectCE] patternCE
    [(some "y", SubstVal.single (.Symbol 0 "a" none))]
    [[(some "y", SubstVal.single (.Symbol 0 "a" none)),
      (some "x", SubstVal.single (.Symbol 0 "b" none))]]
    [(some "y", SubstVal.single (.Symbol 0 "a" none)),
     (some "x", SubstVal.single (.Symbol 0 "b" none))]
    rfl (List.mem_singleton.mpr rfl)

/-- Claim C5 witness: over an associative operator, a fixed-size wildcard of
`min_count = 2` that absorbs three operands keeps the first one and wraps
the remaining two in a fresh operation. -/
theorem build_full_partition_assoc_wrap_witness :
    build_full_partition ⟨1, true, false⟩ [1]
        [Expr.Symbol 0 "a" none, Expr.Symbol 0 "b" none, Expr.Symbol 0 "c" none]
        [Expr.Variable "x" (Expr.Wildcard 2 true none none) none] =
      [[Expr.Symbol 0 "a" none,
        Expr.Operation ⟨1, true, false⟩ [Expr.Symbol 0 "b" none, Expr.Symbol 0 "c" none] none]] :=
  (build_full_partition_assoc_wrap ⟨1, true, false⟩ 1 []
      [Expr.Symbol 0 "a" none, Expr.Symbol 0 "b" none, Expr.Symbol 0 "c" none]
      (Expr.Variable "x" (Expr.Wildcard 2 true none none) none) [] 2 none none rfl rfl).1
    (by decide) (by decide)

end PM
